import Mathlib

/-!
# Verification of the archmap analysis engine

A shallow embedding, in Lean 4, of the analysis core of the `archmap`
static architectural analyzer (dependency-graph construction, the issue
detectors, and the change-impact traversal), together with proofs and
refutations of the specification's claims about it.

Conventions of the embedding:
* Rust `PathBuf` values are UTF-8 strings here (`String`); `Path` operations
  (`file_stem`, `file_name`, `parent`) are modelled on `/`-separated strings.
* Rust `usize` is `Nat`; Rust `f64` values that only ever hold exact small
  ratios (thresholds, scores) are modelled as `ℚ` with exact arithmetic.
* Rust `HashMap`/`HashSet` are modelled as association lists / `Finset`s.
  Where the source *iterates* a `HashMap` (an order that depends on the hash
  seed), the iteration order is either taken in key-insertion order (noted at
  each site) or exposed as an explicit reordering parameter when a claim
  depends on it.
* The petgraph `DiGraph` is a list of node weights (paths, indexed by
  position, insertion order) plus a list of directed edges between indices
  (parallel edges allowed, as in the source's `add_edge`).
-/

namespace Archmap

/-! ## Data model (`src/model/module.rs`, `src/model/issue.rs`) -/

/-- `model::Visibility`. -/
inductive Visibility where
  | public | private_ | crate
deriving DecidableEq, Repr

/-- `model::DefinitionKind`. -/
inductive DefinitionKind where
  | function | struct_ | enum_ | trait_ | impl_ | class_ | interface | type_ | constant
deriving DecidableEq, Repr

/-- `model::Definition`. -/
structure Definition where
  name : String
  kind : DefinitionKind
  line : Nat
  visibility : Visibility
  signature : Option String
deriving DecidableEq, Repr

/-- `model::Module` — one per source file. -/
structure Module where
  path : String
  name : String
  lines : Nat
  imports : List String
  exports : List String
  definitions : List Definition
deriving DecidableEq, Repr

/-- `model::Location`. -/
structure Location where
  path : String
  line : Option Nat
  context : Option String
deriving DecidableEq, Repr

/-- `model::IssueSeverity`. -/
inductive IssueSeverity where
  | info | warn | error
deriving DecidableEq, Repr

/-- `model::IssueKind`.  The `f64` cohesion score is carried as an exact `ℚ`. -/
inductive IssueKind where
  | circularDependency
  | godObject
  | highCoupling
  | boundaryViolation (boundaryName : String)
  | deepDependencyChain (depth : Nat)
  | lowCohesion (score : ℚ)
  | fatModule (privateFunctions : Nat) (publicFunctions : Nat)
deriving DecidableEq, Repr

/-- `model::Issue`. -/
structure Issue where
  kind : IssueKind
  severity : IssueSeverity
  locations : List Location
  message : String
  suggestion : Option String
deriving DecidableEq, Repr

/-- `model::Boundary`.  `ownership_threshold : f64` is carried as `ℚ`. -/
structure Boundary where
  name : String
  indicators : List String
  suggestion : String
  allowedIn : List String
  ownershipThreshold : ℚ
deriving DecidableEq, Repr

/-- `config::Thresholds`.  The two `f64` fields are carried as `ℚ`. -/
structure Thresholds where
  godObjectLines : Nat
  couplingFanin : Nat
  boundaryViolationMin : Nat
  maxDependencyDepth : Nat
  minCohesion : ℚ
  fatModuleLines : Nat
  fatModulePrivateFunctions : Nat
  fatModuleLinesPerExport : ℚ
deriving DecidableEq, Repr

/-- `config::Config`. -/
structure Config where
  thresholds : Thresholds
  boundaries : List Boundary
  expectedHighCoupling : List String
deriving DecidableEq, Repr

/-! ## String utilities mirroring Rust `str`/`Path` operations

These operate on `List Char`; valid UTF-8 byte-level substring search in Rust
coincides with character-level substring search (UTF-8 is self-synchronizing),
so the `List Char` model is faithful.
-/

/-- Rust `char::is_whitespace` (the Unicode `White_Space` property). -/
def rustIsWhitespace (c : Char) : Bool :=
  c = ' ' || (0x9 ≤ c.toNat && c.toNat ≤ 0xd) || c.toNat = 0x85 || c.toNat = 0xa0 ||
  c.toNat = 0x1680 || (0x2000 ≤ c.toNat && c.toNat ≤ 0x200a) ||
  c.toNat = 0x2028 || c.toNat = 0x2029 || c.toNat = 0x202f || c.toNat = 0x205f ||
  c.toNat = 0x3000

/-- Rust `str::find(needle)`: index of the first occurrence of `needle` in
`hay`, if any (`str::find` returns a byte offset; here the offset counts
characters, which identifies the same occurrence). -/
def findSub (hay needle : List Char) : Option Nat :=
  if needle.isPrefixOf hay then some 0
  else
    match hay with
    | [] => none
    | _ :: t => (findSub t needle).map (· + 1)

/-- Rust `str::contains(needle)`. -/
def containsSub (hay needle : List Char) : Bool :=
  (findSub hay needle).isSome

/-- Rust `str::trim_end()`: drop trailing whitespace. -/
def trimEndChars (s : List Char) : List Char :=
  (s.reverse.dropWhile rustIsWhitespace).reverse

/-- Rust `str::ends_with(c)` for a single character. -/
def endsWithChar (s : List Char) (c : Char) : Bool :=
  match s.getLast? with
  | some d => d = c
  | none => false

/-- Rust `str::starts_with(p)` on strings. -/
def startsWithStr (s p : String) : Bool :=
  p.data.isPrefixOf s.data

/-- Rust `str::ends_with(p)` on strings. -/
def endsWithStr (s p : String) : Bool :=
  p.data.isSuffixOf s.data

/-- Rust `str::contains(p)` on strings. -/
def containsStr (s p : String) : Bool :=
  containsSub s.data p.data

/-- Rust `str::to_lowercase()`, modelled character-wise (exact on ASCII,
which is all the analyzer ever lowercases: path strings and import
segments). -/
def toLowerStr (s : String) : String :=
  ⟨s.data.map Char.toLower⟩

/-- Split on the first occurrences of a (nonempty) separator, left to right,
non-overlapping — the semantics of Rust `str::split(sep)`.  Structurally
recursive on an explicit fuel (`s.length` always suffices) so that the
kernel can evaluate it. -/
def splitOnChars (sep : List Char) : Nat → List Char → List (List Char)
  | _, [] => [[]]
  | 0, s => [s]
  | f + 1, c :: t =>
      if sep.isPrefixOf (c :: t) ∧ sep ≠ [] then
        [] :: splitOnChars sep f ((c :: t).drop sep.length)
      else
        match splitOnChars sep f t with
        | [] => [[c]]
        | p :: ps => (c :: p) :: ps

/-- Rust `str::split(sep)` on strings. -/
def strSplitOn (s sep : String) : List String :=
  (splitOnChars sep.data s.data.length s.data).map fun cs => ⟨cs⟩

/-- Rust `str::lines()`: split at `\n`, strip one `\r` before each split
point, and drop the final empty piece produced by a trailing `\n`. -/
def rustLines (s : String) : List String :=
  let ps := strSplitOn s "\n"
  let stripCR : String → String := fun t =>
    if endsWithStr t "\r" then ⟨t.data.dropLast⟩ else t
  match ps.reverse with
  | [] => []
  | last :: revInit =>
      (revInit.reverse.map stripCR) ++ (if last = "" then [] else [last])

/-- Rust `Path::file_name()` on a `/`-separated path: the part after the last
separator (`none` when empty). -/
def fileNameOf (p : String) : Option String :=
  match (strSplitOn p "/").getLast? with
  | some "" => none
  | some n => some n
  | none => none

/-- Rust `Path::file_stem()`: the file name minus its extension (the part
after the last `.`, unless the name starts with that `.`). -/
def fileStemOf (p : String) : Option String :=
  (fileNameOf p).map fun n =>
    let cs := n.data
    match findLastDot cs with
    | some i => if i = 0 then n else ⟨cs.take i⟩
    | none => n
where
  /-- Index of the last `.` in a character list. -/
  findLastDot : List Char → Option Nat
  | [] => none
  | c :: t =>
      match findLastDot t with
      | some j => some (j + 1)
      | none => if c = '.' then some 0 else none

/-! ## Issue constructors (`src/model/issue.rs`) -/

/-- `Issue::circular_dependency`. -/
def Issue.mkCircularDependency (cycle : List String) : Issue :=
  let locations := cycle.map fun p => Location.mk p none none
  let cycleStr := String.intercalate " → " (cycle.filterMap fileStemOf)
  { kind := .circularDependency
    severity := .error
    locations := locations
    message := s!"Circular dependency: {cycleStr}"
    suggestion := some "Break the cycle by extracting shared types or using dependency injection" }

/-- `Issue::god_object`. -/
def Issue.mkGodObject (path : String) (lines : Nat) (responsibilities : List String) : Issue :=
  let joined := String.intercalate ", " responsibilities
  { kind := .godObject
    severity := .warn
    locations := [Location.mk path none none]
    message := s!"{lines} lines with mixed responsibilities: {joined}"
    suggestion := some "Consider splitting into smaller, focused modules" }

/-- `Issue::high_coupling`. -/
def Issue.mkHighCoupling (path : String) (fanIn : Nat) : Issue :=
  { kind := .highCoupling
    severity := .warn
    locations := [Location.mk path none none]
    message := s!"Imported by {fanIn} other modules"
    suggestion := some "High coupling makes changes risky. Consider if this module has too many responsibilities" }

/-- `Issue::boundary_violation`. -/
def Issue.mkBoundaryViolation (boundaryName : String) (locations : List Location)
    (suggestion : String) : Issue :=
  let locationCount := locations.length
  { kind := .boundaryViolation boundaryName
    severity := .warn
    locations := locations
    message := s!"{boundaryName} boundary crossed in {locationCount} locations"
    suggestion := some suggestion }

/-- `Issue::deep_dependency_chain`. -/
def Issue.mkDeepDependencyChain (chain : List String) (maxDepth : Nat) : Issue :=
  let depth := chain.length
  let chainStr := String.intercalate " → " (chain.filterMap fileStemOf)
  { kind := .deepDependencyChain depth
    severity := .warn
    locations := chain.map fun p => Location.mk p none none
    message := s!"Dependency chain of depth {depth} (threshold: {maxDepth}): {chainStr}"
    suggestion := some "Consider introducing an abstraction layer to reduce coupling depth" }

/-- `Issue::fat_module`. -/
def Issue.mkFatModule (path : String) (lines privateFunctions publicFunctions exports : Nat) :
    Issue :=
  { kind := .fatModule privateFunctions publicFunctions
    severity := .info
    locations := [Location.mk path none none]
    message := s!"{lines} lines with {privateFunctions} private functions but only {exports} exports"
    suggestion := some "This module has significant internal complexity hidden behind a small interface. Consider extracting related functions into submodules." }

/-! ## God-object detector (`src/analysis/god_object.rs`) -/

/-- Number of definitions of a given kind in a module. -/
def countKind (m : Module) (k : DefinitionKind) : Nat :=
  (m.definitions.filter fun d => d.kind = k).length

/-- `god_object::detect_responsibilities`, mirroring the source's fixed
heuristic (the four push sites, then the `large module` fallback). -/
def detectResponsibilities (m : Module) : List String :=
  let hasStructs := m.definitions.any fun d => d.kind = .struct_
  let hasFunctions := m.definitions.any fun d => d.kind = .function
  let hasTraits := m.definitions.any fun d => d.kind = .trait_
  let hasImpls := m.definitions.any fun d => d.kind = .impl_
  let implCount := countKind m .impl_
  let structCount := countKind m .struct_
  let fnCount := countKind m .function
  let r1 : List String :=
    if hasStructs = true ∧ 3 < structCount then [s!"data definitions ({structCount} structs)"]
    else []
  let r2 : List String :=
    if hasFunctions = true ∧ 10 < fnCount then [s!"business logic ({fnCount} functions)"]
    else []
  let r3 : List String := if hasTraits = true then ["trait definitions"] else []
  let r4 : List String :=
    if hasImpls = true ∧ 5 < implCount then [s!"implementations ({implCount} impls)"] else []
  let rs := r1 ++ r2 ++ r3 ++ r4
  if rs = [] ∧ 500 ≤ m.lines then ["large module"] else rs

/-- The body of `detect_god_objects`'s per-module loop. -/
def godObjectCheck (cfg : Config) (m : Module) : Option Issue :=
  if m.lines < cfg.thresholds.godObjectLines then none
  else
    let responsibilities := detectResponsibilities m
    if 1 < responsibilities.length then
      some (Issue.mkGodObject m.path m.lines responsibilities)
    else none

/-- `god_object::detect_god_objects`. -/
def detectGodObjects (modules : List Module) (cfg : Config) : List Issue :=
  modules.filterMap (godObjectCheck cfg)

/-! ## Fat-module detector (`src/analysis/complexity.rs`) -/

/-- `complexity::ModuleComplexity`. -/
structure ModuleComplexity where
  path : String
  lines : Nat
  totalFunctions : Nat
  privateFunctions : Nat
  publicFunctions : Nat
  exports : Nat
  sprawlRatio : ℚ
  linesPerExport : ℚ
deriving DecidableEq, Repr

/-- `ModuleComplexity::compute`. -/
def ModuleComplexity.compute (m : Module) : ModuleComplexity :=
  let totalFunctions := (m.definitions.filter fun d => d.kind = .function).length
  let privateFunctions :=
    (m.definitions.filter fun d => d.kind = .function ∧ d.visibility = .private_).length
  let publicFunctions :=
    (m.definitions.filter fun d => d.kind = .function ∧ d.visibility = .public).length
  let exports := m.exports.length
  { path := m.path
    lines := m.lines
    totalFunctions := totalFunctions
    privateFunctions := privateFunctions
    publicFunctions := publicFunctions
    exports := exports
    sprawlRatio := (privateFunctions : ℚ) / (max exports 1 : ℚ)
    linesPerExport := (m.lines : ℚ) / (max exports 1 : ℚ) }

/-- `complexity::is_test_file`. -/
def isTestFile (p : String) : Bool :=
  containsStr p "/tests/" || containsStr p "/test/" ||
  startsWithStr p "tests/" || startsWithStr p "test/" ||
  endsWithStr p "_test.rs" || endsWithStr p "_tests.rs" || endsWithStr p "/tests.rs" ||
  endsWithStr p ".test.ts" || endsWithStr p ".spec.ts" ||
  endsWithStr p "_test.py" || endsWithStr p "test_.py" ||
  containsStr p "/__tests__/"

/-- The body of `detect_fat_modules`'s per-module loop. -/
def fatModuleCheck (cfg : Config) (m : Module) : Option Issue :=
  if isTestFile m.path then none
  else
    let c := ModuleComplexity.compute m
    if c.lines < cfg.thresholds.fatModuleLines then none
    else
      if cfg.thresholds.fatModulePrivateFunctions ≤ c.privateFunctions ∧
          cfg.thresholds.fatModuleLinesPerExport < c.linesPerExport then
        some (Issue.mkFatModule m.path c.lines c.privateFunctions c.publicFunctions c.exports)
      else none

/-- `complexity::detect_fat_modules`. -/
def detectFatModules (modules : List Module) (cfg : Config) : List Issue :=
  modules.filterMap (fatModuleCheck cfg)

/-- `Thresholds::default()`. -/
def defaultThresholds : Thresholds :=
  { godObjectLines := 500
    couplingFanin := 5
    boundaryViolationMin := 2
    maxDependencyDepth := 5
    minCohesion := 3 / 10
    fatModuleLines := 400
    fatModulePrivateFunctions := 8
    fatModuleLinesPerExport := 100 }

/-! ## Boundary-violation detector (`src/analysis/boundary.rs`) -/

/-- Rust `str::trim()`: strip leading and trailing whitespace. -/
def trimStr (s : String) : String :=
  ⟨trimEndChars (s.data.dropWhile rustIsWhitespace)⟩

/-- `boundary::is_string_literal_definition`: the indicator's first
occurrence in the line is preceded — after dropping trailing whitespace of
the prefix before it — by a quote character (`"`, `'` or a backtick). -/
def isStringLiteralDefinition (line indicator : String) : Bool :=
  match findSub line.data indicator.data with
  | some pos =>
      let before := line.data.take pos
      let trimmed := trimEndChars before
      endsWithChar trimmed (Char.ofNat 34) || endsWithChar trimmed (Char.ofNat 39) ||
        endsWithChar trimmed (Char.ofNat 96)
  | none => false

/-- The per-module scanning loop of `detect_boundary_violations_with_fs`
(lines 50–64): for each line, the first indicator that is contained and not
a string-literal definition produces one `Location`, then the line is
abandoned (`break`). -/
def scanModuleLines (path : String) (content : String) (b : Boundary) : List Location :=
  content |> rustLines |>.enum |>.filterMap fun p =>
    match b.indicators.find? (fun ind =>
        containsStr p.2 ind && !isStringLiteralDefinition p.2 ind) with
    | some _ => some (Location.mk path (some (p.1 + 1)) (some (trimStr p.2)))
    | none => none

/-- Rust `Iterator::max_by_key` semantics: the element with the greatest
key; when several elements tie, the **last** one wins. -/
def rustMaxByKey {α : Type} (f : α → Nat) : List α → Option α
  | [] => none
  | x :: t =>
      match rustMaxByKey f t with
      | none => some x
      | some y => if f x ≤ f y then some y else some x

/-- `boundary::apply_ownership_filter`.  The `HashMap` of occurrences is
modelled as an association list carrying the map's iteration order
explicitly (`max_by_key` tie-breaking and the output's location order depend
on it in the source). -/
def applyOwnershipFilter (occ : List (String × List Location)) (b : Boundary) :
    List Location :=
  if occ.isEmpty then []
  else
    let total : Nat := (occ.map fun p => p.2.length).sum
    if total = 0 then []
    else
      match rustMaxByKey (fun p => p.2.length) occ with
      | none => []
      | some owner =>
          let ratio : ℚ := (owner.2.length : ℚ) / (total : ℚ)
          if b.ownershipThreshold ≤ ratio then
            (occ.filter fun q => q.1 ≠ owner.1).flatMap fun q => q.2
          else
            occ.flatMap fun q => q.2

/-- Modelled from the claim's wording (C5): the indicator's occurrence is
*immediately* preceded by a quote character — with no whitespace allowed in
between, unlike the source's `trim_end()`. -/
def specImmediatelyQuotePreceded (line indicator : String) : Bool :=
  match findSub line.data indicator.data with
  | some 0 => false
  | some (pos + 1) =>
      match line.data.get? pos with
      | some c =>
          c = Char.ofNat 34 || c = Char.ofNat 39 || c = Char.ofNat 96
      | none => false
  | none => false

/-! ## Dependency graph (`src/analysis/graph.rs`)

The petgraph `DiGraph<PathBuf, ()>` is modelled as a list of node weights
(insertion order; a node's identity is its position) and a list of directed
edges between positions, in insertion order, parallel edges allowed.
-/

/-- The modelled `DependencyGraph`: `graph` (nodes + edges). -/
structure DepGraph where
  nodes : List String
  edges : List (Nat × Nat)
deriving DecidableEq, Repr

/-- The `node_indices: HashMap<PathBuf, NodeIndex>` lookup: repeated
`insert`s of the same path leave the **last** inserted index, hence the last
position of `p` in the node list. -/
def lastIndexOf (l : List String) (p : String) : Option Nat :=
  match l.enum.reverse.find? (fun q => q.2 = p) with
  | some q => some q.1
  | none => none

/-- The body of `resolve_import`'s `find` closure: does module `m` match the
leading import segments (already split, after `crate`)?  Paths and segments
are compared lowercased; the three patterns are `/<seg1>/mod.rs`,
`/<seg1>.rs` and (for multi-segment imports) `/<seg1>/<seg2>.rs`, each also
with `\`-separators. -/
def importPathMatch (moduleSegments : List String) (m : Module) : Bool :=
  match moduleSegments.head? with
  | none => false
  | some seg1 =>
      let firstSegment := toLowerStr seg1
      let pathStr := toLowerStr m.path
      let isModFile :=
        endsWithStr pathStr ("/" ++ firstSegment ++ "/mod.rs") ||
        endsWithStr pathStr ("\\" ++ firstSegment ++ "\\mod.rs")
      let isDirectFile :=
        endsWithStr pathStr ("/" ++ firstSegment ++ ".rs") ||
        endsWithStr pathStr ("\\" ++ firstSegment ++ ".rs")
      let isSubmodule :=
        match moduleSegments.get? 1 with
        | some seg2 =>
            let secondSegment := toLowerStr seg2
            endsWithStr pathStr ("/" ++ firstSegment ++ "/" ++ secondSegment ++ ".rs") ||
            endsWithStr pathStr ("\\" ++ firstSegment ++ "\\" ++ secondSegment ++ ".rs")
        | none => false
      isModFile || isDirectFile || isSubmodule

/-- `graph::resolve_import`: split the import on `::`; only a
`crate::…` import with at least one further segment is matched (`super`/`self` are
skipped as relative, everything else as an external crate); the first
matching module in list order wins.  (The source's re-check that
`module_segments` is nonempty is subsumed by `rest ≠ []`.) -/
def resolveImport (imp : String) (modules : List Module) : Option String :=
  match strSplitOn imp "::" with
  | [] => none
  | s0 :: rest =>
      if s0 = "crate" ∧ rest ≠ [] then
        (modules.find? (importPathMatch rest)).map (·.path)
      else if s0 = "super" ∨ s0 = "self" then none
      else none

/-- `DependencyGraph::build`: one node per module (in list order), then one
edge per resolved import (modules in order, each module's imports in
order). -/
def DepGraph.build (modules : List Module) : DepGraph :=
  let nodes := modules.map (·.path)
  let edges := modules.flatMap fun m =>
    match lastIndexOf nodes m.path with
    | none => []
    | some fromIdx =>
        m.imports.filterMap fun imp =>
          match resolveImport imp modules with
          | some target =>
              match lastIndexOf nodes target with
              | some toIdx => some (fromIdx, toIdx)
              | none => none
          | none => none
  ⟨nodes, edges⟩

/-! ## Reachability and strongly connected components

`detect_circular_dependencies` calls petgraph's `tarjan_scc`, an external
library function.  It is modelled from its contract: it returns the
strongly-connected components of the graph — the equivalence classes of
mutual reachability — each exactly once (the member order and component
order below are the model's choice; every claim proved about them is
order-insensitive).  Reachability itself is defined both relationally
(`Reach`, for statements) and executably (`reachableB`, a fixpoint
iteration, proved equivalent).
-/

/-- The edge relation of the graph (parallel edges collapse). -/
def hasEdge (g : DepGraph) (u v : Nat) : Prop := (u, v) ∈ g.edges

instance (g : DepGraph) (u v : Nat) : Decidable (hasEdge g u v) := by
  unfold hasEdge
  infer_instance

/-- petgraph `neighbors_directed(u, Outgoing)`: targets of edges out of `u`,
in reverse insertion order. -/
def outNeighbors (g : DepGraph) (u : Nat) : List Nat :=
  ((g.edges.filter fun e => e.1 = u).map (·.2)).reverse

/-- petgraph `neighbors_directed(u, Incoming)`: sources of edges into `u`,
in reverse insertion order. -/
def inNeighbors (g : DepGraph) (u : Nat) : List Nat :=
  ((g.edges.filter fun e => e.2 = u).map (·.1)).reverse

/-- Reachability (zero or more edges). -/
def Reach (g : DepGraph) (u v : Nat) : Prop := Relation.ReflTransGen (hasEdge g) u v

/-- One fixpoint iteration step is enough to add every node one edge beyond
the current frontier; `reachIter g u k` holds everything reachable from `u`
in at most `k` steps (and stabilizes once `k` exceeds the edge count). -/
def reachIter (g : DepGraph) (u : Nat) : Nat → List Nat
  | 0 => [u]
  | k + 1 =>
      let prev := reachIter g u k
      prev ++ (g.edges.filter fun e => e.1 ∈ prev).map (·.2)

/-- Executable reachability. -/
def reachableB (g : DepGraph) (u v : Nat) : Bool :=
  v ∈ reachIter g u (g.edges.length + 1)

/-- Mutual reachability, executably. -/
def mutualB (g : DepGraph) (u v : Nat) : Bool :=
  reachableB g u v && reachableB g v u

/-- The strongly-connected component of `u`: all nodes mutually reachable
with `u`, in ascending index order. -/
def classOf (g : DepGraph) (u : Nat) : List Nat :=
  (List.range g.nodes.length).filter fun v => mutualB g u v

/-- `u` represents its component iff no smaller node is in it. -/
def isClassRep (g : DepGraph) (u : Nat) : Bool :=
  (List.range u).all fun v => !mutualB g u v

/-- The modelled `tarjan_scc`: one component per representative. -/
def tarjanSCC (g : DepGraph) : List (List Nat) :=
  ((List.range g.nodes.length).filter (isClassRep g)).map (classOf g)

/-- The body of `detect_circular_dependencies`'s per-component loop. -/
def circularIssueOf (g : DepGraph) (scc : List Nat) : Option Issue :=
  if 1 < scc.length then
    let cycle := scc.filterMap fun idx => g.nodes.get? idx
    if cycle.isEmpty then none else some (Issue.mkCircularDependency cycle)
  else
    match scc with
    | [idx] =>
        if (outNeighbors g idx).any (fun n => n = idx) then
          (g.nodes.get? idx).map fun p => Issue.mkCircularDependency [p]
        else none
    | _ => none

/-- `circular::detect_circular_dependencies`. -/
def detectCircularDependencies (g : DepGraph) : List Issue :=
  (tarjanSCC g).filterMap (circularIssueOf g)

/-- A node lies on a cycle: some successor reaches back to it. -/
def InCycle (g : DepGraph) (u : Nat) : Prop :=
  ∃ v, hasEdge g u v ∧ Reach g v u

/-- A strongly-connected component of the graph, as a set: nonempty, within
the node range, mutually reachable, and maximal. -/
def IsSccSet (g : DepGraph) (s : Finset Nat) : Prop :=
  s.Nonempty ∧ (∀ u ∈ s, u < g.nodes.length) ∧
  (∀ u ∈ s, ∀ v ∈ s, Reach g u v ∧ Reach g v u) ∧
  (∀ u ∈ s, ∀ v, v < g.nodes.length → Reach g u v → Reach g v u → v ∈ s)

/-- A component that the circular-dependency detector must report: at least
two nodes, or a single node with a self-loop. -/
def QualifyingComponent (g : DepGraph) (s : Finset Nat) : Prop :=
  IsSccSet g s ∧ (1 < s.card ∨ ∃ u, s = {u} ∧ hasEdge g u u)

/-- The path stored at node index `u`. -/
def pathAt (g : DepGraph) (u : Nat) : String := g.nodes.getD u ""

/-! ## Topological ordering (`kahn_with_cycle_handling`) -/

/-- The neighbor-relaxation fold inside the Kahn loop: for each outgoing
neighbor (one occurrence per parallel edge), `saturating_sub` its in-degree
and enqueue it when it reaches zero and is unvisited.  (`HashMap.get_mut`
succeeds exactly for indices below the degree table's length.) -/
def relaxAll (visited' : Finset Nat) : List Nat → List Nat → List Nat → List Nat × List Nat
  | [], deg, queue => (deg, queue)
  | w :: ws, deg, queue =>
      match deg.get? w with
      | some d =>
          let d' := d - 1
          let deg' := deg.set w d'
          if d' = 0 ∧ w ∉ visited' then relaxAll visited' ws deg' (queue ++ [w])
          else relaxAll visited' ws deg' queue
      | none => relaxAll visited' ws deg queue

/-- The in-degree-zero queue loop of `kahn_with_cycle_handling`.  Returns
the visit order and the visited set.  The guard `g.nodes.length ≤ idx`
keeps the function total on arbitrary edge lists; in the source the queue
only ever holds valid node indices, so the branch is unreachable there. -/
def kahnVisit (g : DepGraph) (deg : List Nat) (queue : List Nat)
    (visited : Finset Nat) (result : List Nat) : List Nat × Finset Nat :=
  match queue with
  | [] => (result, visited)
  | idx :: rest =>
      if idx ∈ visited ∨ g.nodes.length ≤ idx then
        kahnVisit g deg rest visited result
      else
        let visited' := insert idx visited
        let st := relaxAll visited' (outNeighbors g idx) deg rest
        kahnVisit g st.1 st.2 visited' (result ++ [idx])
termination_by ((Finset.range g.nodes.length \ visited).card, queue.length)
decreasing_by
  · apply Prod.Lex.right
    simp
  · apply Prod.Lex.left
    rename_i h
    push_neg at h
    have hidx : idx ∈ Finset.range g.nodes.length \ visited :=
      Finset.mem_sdiff.2 ⟨Finset.mem_range.2 h.2, h.1⟩
    have : Finset.range g.nodes.length \ insert idx visited =
        (Finset.range g.nodes.length \ visited).erase idx := by
      ext x
      simp only [Finset.mem_sdiff, Finset.mem_erase, Finset.mem_insert, Finset.mem_range]
      tauto
    rw [this]
    exact Finset.card_erase_lt_of_mem hidx

/-- `graph::kahn_with_cycle_handling`: in-degrees with multiplicity, the
degree-zero queue, the visit loop, then the unvisited remainder in node
order; node indices are read back as paths. -/
def kahnWithCycleHandling (g : DepGraph) : List String :=
  let deg := (List.range g.nodes.length).map fun v =>
    (g.edges.filter fun e => e.2 = v).length
  let queue := (List.range g.nodes.length).filter fun v =>
    (g.edges.filter fun e => e.2 = v).length = 0
  let st := kahnVisit g deg queue ∅ []
  (st.1 ++ (List.range g.nodes.length).filter fun v => v ∉ st.2).map (pathAt g)

/-- Is some node on a cycle? (Executable; cycles through out-of-range
indices cannot occur in graphs built by petgraph.) -/
def hasCycleB (g : DepGraph) : Bool :=
  (List.range g.nodes.length).any fun u => (outNeighbors g u).any fun v => reachableB g v u

/-- `graph::topological_order`, modelled from the contract of petgraph's
`toposort`: fails exactly on a cyclic graph, and otherwise returns a
topological order of all nodes.  Kahn's algorithm on an acyclic graph is
such an order (the real DFS-based order may differ, but satisfies the same
contract, and every theorem below about `topological_order_with_cycles`
only uses the contract). -/
def topologicalOrder (g : DepGraph) : Option (List String) :=
  if hasCycleB g then none else some (kahnWithCycleHandling g)

/-- `graph::topological_order_with_cycles`. -/
def topologicalOrderWithCycles (g : DepGraph) : List String :=
  match topologicalOrder g with
  | some order => order
  | none => kahnWithCycleHandling g

/-- `v` is reachable from some node that lies on a cycle. -/
def CycleReach (g : DepGraph) (v : Nat) : Prop :=
  ∃ w, InCycle g w ∧ Reach g w v

/-- In-degree of `v` counting only edges whose source is not yet visited
(the quantity the Kahn loop's mutable degree table tracks). -/
def countU (g : DepGraph) (visited : Finset Nat) (v : Nat) : Nat :=
  (g.edges.filter fun e => e.2 = v ∧ e.1 ∉ visited).length

/-- The loop invariant of `kahnVisit`: the result is duplicate-free and
lists exactly the visited (in-range) nodes; the degree table tracks
`countU`; queued nodes are in range and visited-or-drained; unvisited
drained nodes are queued; and edges into visited nodes come from earlier
visited nodes. -/
def KInv (g : DepGraph) (deg : List Nat) (queue : List Nat) (visited : Finset Nat)
    (result : List Nat) : Prop :=
  result.Nodup ∧
  (∀ x, x ∈ result ↔ x ∈ visited) ∧
  visited ⊆ Finset.range g.nodes.length ∧
  deg.length = g.nodes.length ∧
  (∀ v, v < g.nodes.length → deg.get? v = some (countU g visited v)) ∧
  (∀ w ∈ queue, w < g.nodes.length ∧ (w ∈ visited ∨ countU g visited w = 0)) ∧
  (∀ v, v < g.nodes.length → v ∉ visited → countU g visited v = 0 → v ∈ queue) ∧
  (∀ u v, (u, v) ∈ g.edges → v ∈ result →
    u ∈ result ∧ result.indexOf u < result.indexOf v)

/-- What holds of `kahnVisit`'s result when the queue has drained. -/
def KFinal (g : DepGraph) (st : List Nat × Finset Nat) : Prop :=
  st.1.Nodup ∧ (∀ x, x ∈ st.1 ↔ x ∈ st.2) ∧ st.2 ⊆ Finset.range g.nodes.length ∧
  (∀ u v, (u, v) ∈ g.edges → v ∈ st.1 → u ∈ st.1 ∧ st.1.indexOf u < st.1.indexOf v) ∧
  (∀ v, v < g.nodes.length → v ∉ st.2 → countU g st.2 v ≠ 0)

/-- Executable version of `CycleReach` (complete for in-range cycles, which
is all of them on a well-formed graph). -/
def cycleReachB (g : DepGraph) (v : Nat) : Bool :=
  (List.range g.nodes.length).any fun w =>
    ((outNeighbors g w).any fun x => reachableB g x w) && reachableB g w v

/-- Modelled from the claim's wording (C6): an import with no self/relative
prefix is matched by splitting on the path separator and comparing the
leading segment(s) with module-path suffixes `/<seg1>/<entry-file>`,
`/<seg1>.<ext>`, or `/<seg1>/<seg2>.<ext>` (entry file `mod.rs`, extension
`rs` for this repository's language). -/
def specImportMatches (imp : String) (m : Module) : Bool :=
  let segments := strSplitOn imp "::"
  match segments.head? with
  | none => false
  | some seg1 =>
      if seg1 = "self" ∨ seg1 = "super" ∨ startsWithStr imp "./" ∨ startsWithStr imp "../" then
        false
      else
        endsWithStr m.path ("/" ++ seg1 ++ "/mod.rs") ||
        endsWithStr m.path ("/" ++ seg1 ++ ".rs") ||
        (match segments.get? 1 with
         | some seg2 => endsWithStr m.path ("/" ++ seg1 ++ "/" ++ seg2 ++ ".rs")
         | none => false)

/-! ## Concrete example inputs used by witnesses and counterexamples -/

/-- A module importing plain `model` (no `crate::` prefix, no self/relative
prefix). -/
def modApp : Module :=
  { path := "src/app.rs", name := "app", lines := 10
    imports := ["model"], exports := [], definitions := [] }

/-- The target module `src/model.rs` that the claim's matching rules hit. -/
def modModel : Module :=
  { path := "src/model.rs", name := "model", lines := 10
    imports := [], exports := [], definitions := [] }

/-- A boundary with a single SQL indicator and no allow-list. -/
def bEx : Boundary :=
  { name := "Persistence", indicators := ["SELECT "]
    suggestion := "Consider centralizing in a repository/data access layer"
    allowedIn := [], ownershipThreshold := 1 / 2 }

/-- A line that *defines* an indicator string with whitespace after the
opening quote: the quote is not immediately before the indicator, yet the
source suppresses the hit after `trim_end()`. -/
def lineQuoteWs : String := "let q = \"  SELECT x\";"

/-- End-to-end scenario 3 of the spec: `db/repo.rs` owns 8 hits. -/
def pEx : String × List Location :=
  ("db/repo.rs", (List.range 8).map fun i => Location.mk "db/repo.rs" (some (i + 1)) none)

/-- Hit groups: 8 in `db/repo.rs`, 2 in `service.rs`. -/
def occEx : List (String × List Location) :=
  [pEx,
   ("service.rs", [Location.mk "service.rs" (some 1) none,
                   Location.mk "service.rs" (some 2) none])]

/-- A two-line file whose second line crosses the `SELECT ` boundary. -/
def contentEx : String := "let a = 1;\nSELECT * FROM t;"

/-- A module importing `crate::model`. -/
def modUser : Module :=
  { path := "src/user.rs", name := "user", lines := 10
    imports := ["crate::model"], exports := [], definitions := [] }

/-- End-to-end scenario 1 of the spec: a three-node cycle `a → b → c → a`. -/
def gEx3 : DepGraph :=
  { nodes := ["src/a.rs", "src/b.rs", "src/c.rs"]
    edges := [(0, 1), (1, 2), (2, 0)] }

/-- A configuration with default thresholds and no boundaries. -/
def cfgEx : Config :=
  { thresholds := defaultThresholds, boundaries := [], expectedHighCoupling := [] }

/-- A 600-line module with no definitions at all. -/
def mEx : Module :=
  { path := "src/big.rs", name := "big", lines := 600
    imports := [], exports := [], definitions := [] }

/-- End-to-end scenario 2 of the spec: 600 lines, 12 private functions,
2 public functions, 1 export. -/
def mFat : Module :=
  { path := "src/fat.rs", name := "fat", lines := 600
    imports := []
    exports := ["e0"]
    definitions :=
      (List.replicate 12 (Definition.mk "p" .function 1 .private_ none)) ++
      (List.replicate 2 (Definition.mk "q" .function 1 .public none)) }

/-- A 600-line module with 20 exports (well-exported, not fat). -/
def mExported : Module :=
  { path := "src/wide.rs", name := "wide", lines := 600
    imports := []
    exports := List.replicate 20 "e"
    definitions := List.replicate 12 (Definition.mk "p" .function 1 .private_ none) }

/-- A graph where a cycle (`c1 ↔ c2`) feeds both endpoints of the acyclic
edge `a → b`: no node has in-degree zero, so Kahn's queue starts empty. -/
def gC2 : DepGraph :=
  { nodes := ["b", "a", "c1", "c2"]
    edges := [(2, 3), (3, 2), (2, 0), (3, 1), (1, 0)] }

/-- A two-node acyclic graph `x → y`. -/
def gW2 : DepGraph :=
  { nodes := ["x", "y"], edges := [(0, 1)] }

/-! ## Deep-dependency-chain detector (`src/analysis/depth.rs`) -/

/-- Modelled from the contract of petgraph's `all_simple_paths` (a DFS): the
simple paths from the current node `u` to `tgt` extending the prefix `acc`,
with the total number of nodes added bounded by the fuel. -/
def simplePathsAux (g : DepGraph) (tgt : Nat) : Nat → List Nat → Nat → List (List Nat)
  | 0, _, _ => []
  | fuel + 1, acc, u =>
      if u = tgt then [acc ++ [u]]
      else (outNeighbors g u).flatMap fun v =>
        if v ∈ acc ++ [u] then [] else simplePathsAux g tgt fuel (acc ++ [u]) v

/-- petgraph `all_simple_paths(pg, s, t, 0, Some(maxI))` for `s ≠ t`, by
contract: simple paths from `s` to `t` with at most `maxI` intermediate
nodes, i.e. at most `maxI + 2` nodes in total. -/
def allSimplePaths (g : DepGraph) (s t : Nat) (maxI : Nat) : List (List Nat) :=
  simplePathsAux g t (maxI + 2) [] s

/-- The inner body of `detect_deep_dependency_chains`: flag a path longer
than `max_depth` unless its display-string key was already reported.  The
state is (reported chain keys, issues so far). -/
def deepChainPathStep (g : DepGraph) (maxD : Nat)
    (st2 : List (List String) × List Issue) (path : List Nat) :
    List (List String) × List Issue :=
  if maxD < path.length then
    let key := path.map (pathAt g)
    if key ∈ st2.1 then st2
    else (key :: st2.1, st2.2 ++ [Issue.mkDeepDependencyChain key maxD])
  else st2

/-- One ordered node pair of the chain detector's double loop: skip equal
endpoints, otherwise scan all simple paths between them. -/
def deepChainStep (g : DepGraph) (maxD : Nat) (st : List (List String) × List Issue)
    (pr : Nat × Nat) : List (List String) × List Issue :=
  if pr.1 = pr.2 then st
  else (allSimplePaths g pr.1 pr.2 (maxD + 2)).foldl (deepChainPathStep g maxD) st

/-- Stable descending insertion by location count.  Rust's stable `sort_by`
with comparator `b.locations.len().cmp(&a.locations.len())` is modelled by
stable insertion sort: all stable sorts by one total preorder agree. -/
def insertByLenDesc (i : Issue) : List Issue → List Issue
  | [] => [i]
  | j :: t =>
      if j.locations.length ≤ i.locations.length then i :: j :: t
      else j :: insertByLenDesc i t

/-- Stable sort of the issue list, longest location list first. -/
def sortByLenDesc : List Issue → List Issue
  | [] => []
  | i :: t => insertByLenDesc i (sortByLenDesc t)

/-- `depth::detect_deep_dependency_chains`, parameterized by the order in
which the `HashMap` iteration yields the ordered node pairs. -/
def deepChainsCore (g : DepGraph) (cfg : Config) (pairs : List (Nat × Nat)) : List Issue :=
  let maxD := cfg.thresholds.maxDependencyDepth
  (sortByLenDesc (pairs.foldl (deepChainStep g maxD) ([], [])).2).take 10

/-- The chain detector with the pair iteration in node-index order (one
definite instance of the unspecified `HashMap` iteration order). -/
def detectDeepDependencyChains (g : DepGraph) (cfg : Config) : List Issue :=
  deepChainsCore g cfg
    ((List.range g.nodes.length).flatMap fun s =>
      (List.range g.nodes.length).map fun t => (s, t))

/-- The property of every emitted chain issue: it reports a simple directed
path of more than `maxD` but at most `maxD + 4` nodes. -/
def DeepChainOK (g : DepGraph) (maxD : Nat) (i : Issue) : Prop :=
  ∃ p : List Nat, List.Chain' (hasEdge g) p ∧ p.Nodup ∧
    maxD < p.length ∧ p.length ≤ maxD + 4 ∧
    i = Issue.mkDeepDependencyChain (p.map (pathAt g)) maxD

/-- The chain detector's loop invariant: accumulated issues are sound,
pairwise distinct, and all their keys are recorded. -/
def DeepChainStInv (g : DepGraph) (maxD : Nat)
    (st : List (List String) × List Issue) : Prop :=
  (∀ i ∈ st.2, DeepChainOK g maxD i) ∧
  List.Pairwise (fun a b : Issue => a.locations ≠ b.locations) st.2 ∧
  (∀ i ∈ st.2, i.locations.map Location.path ∈ st.1)

/-- A five-module chain `m0 → m1 → m2 → m3 → m4`. -/
def gC7 : DepGraph :=
  { nodes := ["m0", "m1", "m2", "m3", "m4"]
    edges := [(0, 1), (1, 2), (2, 3), (3, 4)] }

/-- The default configuration with `max_dependency_depth` lowered to 1. -/
def cfgC7 : Config :=
  { cfgEx with thresholds := { defaultThresholds with maxDependencyDepth := 1 } }

/-! ## Impact analysis (`src/analysis/impact.rs`) -/

/-- A walk of a given length from `u` along reversed edges: one step moves
from a node to one of its direct dependents (a source of an edge into it). -/
inductive RevWalk (g : DepGraph) : Nat → Nat → Nat → Prop where
  | zero (u : Nat) : RevWalk g 0 u u
  | succ {n u v w : Nat} : RevWalk g n u v → (w, v) ∈ g.edges → RevWalk g (n + 1) u w

/-- The mutable state of the `compute_impact` BFS: the visited set, the
depth map (in insertion order), and the FIFO queue. -/
structure BfsState where
  visited : Finset Nat
  dm : List (Nat × Nat)
  queue : List (Nat × Nat)

/-- The dependent loop of `compute_impact` (both the seeding loop over the
target's direct dependents and the expansion of a popped node): visit each
unvisited dependent at `depth + 1`, recording it in the depth map and the
queue. -/
def impactVisit (g : DepGraph) (node depth : Nat) (st : BfsState) : BfsState :=
  (inNeighbors g node).foldl
    (fun st dep =>
      if dep ∈ st.visited then st
      else ⟨insert dep st.visited, st.dm ++ [(dep, depth + 1)],
            st.queue ++ [(dep, depth + 1)]⟩) st

/-- The BFS loop of `compute_impact` with `max_depth = None` (so the depth
cutoff never fires).  The fuel only bounds the iteration count: every queue
entry was pushed when its node first entered `visited` and all pushed nodes
are distinct sources of edges, so `edges.length + 1` pops always drain the
queue. -/
def impactLoop (g : DepGraph) : Nat → BfsState → List (Nat × Nat)
  | 0, st => st.dm
  | fuel + 1, st =>
      match st.queue with
      | [] => st.dm
      | (node, depth) :: rest =>
          impactLoop g fuel (impactVisit g node depth ⟨st.visited, st.dm, rest⟩)

/-- The depth map `compute_impact(graph, target, None)` builds: seed with the
target's direct dependents at depth 1, then BFS. -/
def impactDepthMap (g : DepGraph) (t : Nat) : List (Nat × Nat) :=
  impactLoop g (g.edges.length + 1) (impactVisit g t 0 ⟨∅, [], []⟩)

/-- Rust `level.sort()` on path strings, modelled as stable insertion sort by
the lexicographic order (`PathBuf` ordering on these flat relative paths). -/
def insertStrAsc (x : String) : List String → List String
  | [] => [x]
  | y :: t => if x ≤ y then x :: y :: t else y :: insertStrAsc x t

/-- Stable ascending sort of a path list. -/
def sortStrAsc : List String → List String
  | [] => []
  | x :: t => insertStrAsc x (sortStrAsc t)

/-- `max_chain_length`: the largest recorded depth (0 on an empty map). -/
def maxChainLength (dm : List (Nat × Nat)) : Nat :=
  dm.foldl (fun m e => max m e.2) 0

/-- `affected_by_depth`: level `k` holds the sorted paths recorded at depth
`k + 1`.  (The `HashMap` iteration order the source uses to fill the levels
is immaterial: each level is sorted afterwards and the keys are distinct.) -/
def affectedByDepth (g : DepGraph) (t : Nat) : List (List String) :=
  let dm := impactDepthMap g t
  (List.range (maxChainLength dm)).map fun k =>
    sortStrAsc ((dm.filter fun e => e.2 = k + 1).map fun e => pathAt g e.1)

/-! ## Boundary detector assembly (`src/analysis/boundary.rs`, `src/model/boundary.rs`) -/

/-- `model::boundary::glob_match_recursive`.  The fuel strictly exceeds the
pattern length; every recursive call drops at least one pattern character
(the `**` or `*`), so the fuel never runs out on the initial call. -/
def globMatchRec : Nat → List Char → List Char → Bool
  | 0, _, _ => false
  | fuel + 1, pat, path =>
      match findSub pat ['*', '*'] with
      | some pos =>
          let pre := pat.take pos
          let suf0 := pat.drop (pos + 2)
          let suf := if suf0.head? = some '/' then suf0.tail else suf0
          if pre ≠ [] ∧ ¬ pre.isPrefixOf path then false
          else
            let remaining := path.drop pre.length
            if suf = [] then true
            else (List.range (remaining.length + 1)).any fun i =>
              globMatchRec fuel suf (remaining.drop i)
      | none =>
        match findSub pat ['*'] with
        | some pos =>
            let pre := pat.take pos
            let suf := pat.drop (pos + 1)
            if ¬ pre.isPrefixOf path then false
            else
              let remaining := path.drop pre.length
              let stop := (remaining.findIdx? fun c => c == '/').getD remaining.length
              ((List.range stop).any fun i => globMatchRec fuel suf (remaining.drop i)) ||
                globMatchRec fuel suf (remaining.drop stop)
        | none => pat == path || ('/' :: pat).isSuffixOf path

/-- `model::boundary::glob_match`: normalize separators, then match. -/
def globMatch (pat path : String) : Bool :=
  let p := pat.data.map fun c => if c = '\\' then '/' else c
  let q := path.data.map fun c => if c = '\\' then '/' else c
  globMatchRec (p.length + 1) p q

/-- `Boundary::is_allowed`. -/
def Boundary.isAllowed (b : Boundary) (path : String) : Bool :=
  if b.allowedIn.isEmpty then false
  else b.allowedIn.any fun pat => globMatch pat path

/-- The `occurrences_by_module` map one boundary accumulates, as an
association list in first-insertion (module) order: one entry per
non-allowed, readable module with at least one scanned hit.  (Module paths
are distinct, so the `entry` API never revisits a key.) -/
def boundaryOccurrences (modules : List Module) (fs : String → Option String)
    (b : Boundary) : List (String × List Location) :=
  modules.filterMap fun m =>
    if b.isAllowed m.path then none
    else
      match fs m.path with
      | none => none
      | some content =>
          let locs := scanModuleLines m.path content b
          if locs.isEmpty then none else some (m.path, locs)

/-- `boundary::detect_boundary_violations_with_fs`, parameterized by the
iteration order `σ` of each freshly seeded `occurrences_by_module`
`HashMap` (a permutation applied to the entry list; `RandomState` reseeds
per map, so two runs may use different `σ`).  The re-grouped
`modules_affected` map is consulted only for its size — the number of
distinct paths among the filtered locations. -/
def detectBoundaryViolationsWithFs (modules : List Module) (cfg : Config)
    (fs : String → Option String)
    (σ : List (String × List Location) → List (String × List Location)) : List Issue :=
  cfg.boundaries.flatMap fun b =>
    let occ := σ (boundaryOccurrences modules fs b)
    let filtered := applyOwnershipFilter occ b
    let affected := ((filtered.map Location.path).dedup).length
    if cfg.thresholds.boundaryViolationMin ≤ affected then
      [Issue.mkBoundaryViolation b.name filtered b.suggestion]
    else []

/-- A boundary with one indicator, no allow-list, and the default 50%
ownership threshold. -/
def bC3 : Boundary :=
  { name := "Persistence", indicators := ["SELECT "],
    suggestion := "Consider centralizing in a repository/data access layer",
    allowedIn := [], ownershipThreshold := 1 / 2 }

/-- Two modules that each hit `bC3` exactly once. -/
def modsC3 : List Module :=
  [ { path := "src/a.rs", name := "a", lines := 1, imports := [], exports := [],
      definitions := [] },
    { path := "src/b.rs", name := "b", lines := 1, imports := [], exports := [],
      definitions := [] } ]

/-- File contents for `modsC3`: one `SELECT` line each. -/
def fsC3 : String → Option String := fun p =>
  if p = "src/a.rs" then some "SELECT 1;"
  else if p = "src/b.rs" then some "SELECT 2;"
  else none

/-- The single hit recorded in `src/a.rs`. -/
def locC3a : Location := Location.mk "src/a.rs" (some 1) (some "SELECT 1;")

/-- The single hit recorded in `src/b.rs`. -/
def locC3b : Location := Location.mk "src/b.rs" (some 1) (some "SELECT 2;")

/-- A configuration with boundary `bC3` that flags from one affected module
up. -/
def cfgC3 : Config :=
  { thresholds := { defaultThresholds with boundaryViolationMin := 1 },
    boundaries := [bC3], expectedHighCoupling := [] }

/-- The `compute_impact` BFS invariant: the depth map's keys are exactly the
visited nodes, each key appears once with a sound and minimal positive
depth; the queue holds depth-map entries with nondecreasing depths spanning
at most two consecutive values; dependents of expanded nodes (visited nodes
no longer queued) and of the target are visited. -/
def ImpactInv (g : DepGraph) (t : Nat) (st : BfsState) : Prop :=
  (∀ v d, (v, d) ∈ st.dm → v ∈ st.visited) ∧
  (∀ v, v ∈ st.visited → ∃ d, (v, d) ∈ st.dm) ∧
  (st.dm.map Prod.fst).Nodup ∧
  (∀ v d, (v, d) ∈ st.dm → 1 ≤ d ∧ RevWalk g d t v ∧
    ∀ j, 0 < j → RevWalk g j t v → d ≤ j) ∧
  (∀ e ∈ st.queue, e ∈ st.dm) ∧
  (st.queue.map Prod.snd).Pairwise (· ≤ ·) ∧
  (∀ a ∈ st.queue.map Prod.snd, ∀ b ∈ st.queue.map Prod.snd, a ≤ b + 1) ∧
  (∀ v, v ∈ st.visited → (∀ d, (v, d) ∉ st.queue) →
    ∀ w, w ∈ inNeighbors g v → w ∈ st.visited) ∧
  (∀ w, w ∈ inNeighbors g t → w ∈ st.visited)

end Archmap

/-! # Theorems -/

namespace Archmap

/-! ## C10 — god-object fallback responsibility alone never yields an issue -/

/-- C10: for every module in which none of the specific responsibility
signals trigger (struct count ≤ 3, function count ≤ 10, no trait
definitions, impl count ≤ 5), `detect_god_objects` emits no issue for that
module regardless of its line count: the generic `large module` fallback
(added when the module is at least 500 lines) is always the sole
responsibility, and an issue requires at least two. -/
theorem C10_no_signal_no_issue (cfg : Config) (m : Module)
    (hs : countKind m .struct_ ≤ 3) (hf : countKind m .function ≤ 10)
    (ht : ∀ d ∈ m.definitions, d.kind ≠ .trait_) (hi : countKind m .impl_ ≤ 5) :
    detectResponsibilities m = (if 500 ≤ m.lines then ["large module"] else []) ∧
    godObjectCheck cfg m = none ∧ detectGodObjects [m] cfg = [] := by
  have c1 : ¬((m.definitions.any fun d => d.kind = DefinitionKind.struct_) = true ∧
      3 < countKind m .struct_) := by rintro ⟨-, h⟩; omega
  have c2 : ¬((m.definitions.any fun d => d.kind = DefinitionKind.function) = true ∧
      10 < countKind m .function) := by rintro ⟨-, h⟩; omega
  have c3 : ¬((m.definitions.any fun d => d.kind = DefinitionKind.trait_) = true) := by
    simp only [List.any_eq_true, decide_eq_true_eq]
    rintro ⟨d, hd, hk⟩
    exact ht d hd hk
  have c4 : ¬((m.definitions.any fun d => d.kind = DefinitionKind.impl_) = true ∧
      5 < countKind m .impl_) := by rintro ⟨-, h⟩; omega
  have hres : detectResponsibilities m = (if 500 ≤ m.lines then ["large module"] else []) := by
    simp only [detectResponsibilities, if_neg c1, if_neg c2, if_neg c3, if_neg c4,
      List.append_nil]
    simp
  have hchk : godObjectCheck cfg m = none := by
    simp only [godObjectCheck, hres]
    split
    · rfl
    · rcases le_or_lt 500 m.lines with h5 | h5
      · rw [if_pos h5]
        simp
      · rw [if_neg (by omega : ¬500 ≤ m.lines)]
        simp
  exact ⟨hres, hchk, by simp [detectGodObjects, hchk]⟩

/-- Witness for C10 at a concrete 600-line module with no definitions. -/
theorem C10_no_signal_no_issue_witness :
    detectResponsibilities mEx = (if 500 ≤ mEx.lines then ["large module"] else []) ∧
    godObjectCheck cfgEx mEx = none ∧ detectGodObjects [mEx] cfgEx = [] :=
  C10_no_signal_no_issue cfgEx mEx (by decide) (by decide) (by simp [mEx]) (by decide)

/-! ## C8 — fat-module detector flag condition -/

/-- Helper: the concrete fat module is flagged under default thresholds. -/
theorem detectFatModules_mFat : detectFatModules [mFat] cfgEx ≠ [] := by
  have h1 : isTestFile mFat.path = false := by decide
  have h2 : cfgEx.thresholds.fatModuleLinesPerExport <
      (mFat.lines : ℚ) / (max mFat.exports.length 1 : ℚ) := by
    have he : mFat.exports.length = 1 := by decide
    rw [he]
    norm_num [cfgEx, defaultThresholds, mFat]
  simp only [detectFatModules, List.filterMap, fatModuleCheck, ModuleComplexity.compute, h1,
    Bool.false_eq_true, if_false]
  rw [if_neg (by decide : ¬mFat.lines < cfgEx.thresholds.fatModuleLines),
    if_pos ⟨by decide, h2⟩]
  simp

/-- Helper: the concrete well-exported module is not flagged. -/
theorem detectFatModules_mExported : detectFatModules [mExported] cfgEx = [] := by
  have h1 : isTestFile mExported.path = false := by decide
  simp only [detectFatModules, List.filterMap, fatModuleCheck, ModuleComplexity.compute, h1,
    Bool.false_eq_true, if_false]
  rw [if_neg (by decide : ¬mExported.lines < cfgEx.thresholds.fatModuleLines),
    if_neg ?_]
  rintro ⟨-, h⟩
  have : mExported.exports.length = 20 := by decide
  rw [this] at h
  norm_num [cfgEx, defaultThresholds, mExported] at h

/-- C8: for every non-test module, the fat-module detector flags it iff its
line count is at least the configured minimum, its private-function count is
at least the configured minimum, and `lines / max(exports, 1)` is strictly
greater than the configured maximum lines-per-export; under default
thresholds a module with 600 lines, 12 private functions, 2 public
functions and 1 export is flagged, and a module with 600 lines and 20
exports is not. -/
theorem C8_fat_module_iff :
    (∀ (cfg : Config) (m : Module), isTestFile m.path = false →
      ((fatModuleCheck cfg m).isSome = true ↔
        (cfg.thresholds.fatModuleLines ≤ m.lines ∧
         cfg.thresholds.fatModulePrivateFunctions ≤
           (m.definitions.filter fun d =>
             d.kind = .function ∧ d.visibility = .private_).length ∧
         cfg.thresholds.fatModuleLinesPerExport <
           (m.lines : ℚ) / (max m.exports.length 1 : ℚ)))) ∧
    detectFatModules [mFat] cfgEx ≠ [] ∧ detectFatModules [mExported] cfgEx = [] := by
  refine ⟨?_, detectFatModules_mFat, detectFatModules_mExported⟩
  intro cfg m hTest
  simp only [fatModuleCheck, ModuleComplexity.compute, hTest, Bool.false_eq_true, if_false]
  split_ifs with h1 h2
  · exact iff_of_false (by simp) (by rintro ⟨h, -, -⟩; omega)
  · exact iff_of_true (by simp) ⟨by omega, h2.1, by exact_mod_cast h2.2⟩
  · refine iff_of_false (by simp) ?_
    rintro ⟨hL, hp, hr⟩
    exact h2 ⟨hp, by exact_mod_cast hr⟩

/-! ## C4 — ownership filter threshold behaviour -/

/-- Helper: `rustMaxByKey` on a nonempty list yields something. -/
theorem rustMaxByKey_isSome {α : Type} (f : α → Nat) (x : α) (t : List α) :
    (rustMaxByKey f (x :: t)).isSome = true := by
  cases h : rustMaxByKey f t with
  | none => simp [rustMaxByKey, h]
  | some z =>
    simp only [rustMaxByKey, h]
    split <;> rfl

/-- Helper: a `rustMaxByKey` result is an element of the list. -/
theorem rustMaxByKey_mem {α : Type} (f : α → Nat) :
    ∀ (l : List α) (y : α), rustMaxByKey f l = some y → y ∈ l := by
  intro l
  induction l with
  | nil => intro y h; simp [rustMaxByKey] at h
  | cons x t ih =>
    intro y h
    cases ht : rustMaxByKey f t with
    | none =>
      simp only [rustMaxByKey, ht] at h
      injection h with h'
      subst h'
      exact List.mem_cons_self _ _
    | some z =>
      simp only [rustMaxByKey, ht] at h
      by_cases hc : f x ≤ f z
      · rw [if_pos hc] at h
        injection h with h'
        subst h'
        exact List.mem_cons_of_mem _ (ih _ ht)
      · rw [if_neg hc] at h
        injection h with h'
        subst h'
        exact List.mem_cons_self _ _

/-- Helper: a `rustMaxByKey` result has the greatest key. -/
theorem rustMaxByKey_le {α : Type} (f : α → Nat) :
    ∀ (l : List α) (y : α), rustMaxByKey f l = some y → ∀ x ∈ l, f x ≤ f y := by
  intro l
  induction l with
  | nil => intro y h; simp [rustMaxByKey] at h
  | cons x t ih =>
    intro y h a ha
    cases ht : rustMaxByKey f t with
    | none =>
      have ht' : t = [] := by
        cases t with
        | nil => rfl
        | cons b u =>
          have hs := rustMaxByKey_isSome f b u
          rw [ht] at hs
          simp at hs
      subst ht'
      simp only [rustMaxByKey] at h
      injection h with h'
      subst h'
      rcases List.mem_cons.1 ha with rfl | h0
      · exact le_refl _
      · simp at h0
    | some z =>
      simp only [rustMaxByKey, ht] at h
      by_cases hc : f x ≤ f z
      · rw [if_pos hc] at h
        injection h with h'
        subst h'
        rcases List.mem_cons.1 ha with rfl | h0
        · exact hc
        · exact ih _ ht a h0
      · rw [if_neg hc] at h
        injection h with h'
        subst h'
        rcases List.mem_cons.1 ha with rfl | h0
        · exact le_refl _
        · exact le_trans (ih _ ht a h0) (le_of_not_le hc)

/-- C4: for the ownership filter over hits grouped by module (keys distinct,
`p` the unique module with the most hits, `N = p.2.length` of `T` total
hits, threshold `t`): `p`'s hits are excluded iff `N/T ≥ t` (inclusive
comparison), and when `N/T < t` every hit of every module is kept. -/
theorem C4_ownership_filter (b : Boundary) (occ : List (String × List Location))
    (p : String × List Location) (hmem : p ∈ occ)
    (hnodup : (occ.map Prod.fst).Nodup)
    (hmax : ∀ q ∈ occ, q.1 ≠ p.1 → q.2.length < p.2.length) :
    (b.ownershipThreshold ≤ (p.2.length : ℚ) / (((occ.map fun q => q.2.length).sum : ℕ) : ℚ) →
      applyOwnershipFilter occ b = (occ.filter fun q => q.1 ≠ p.1).flatMap fun q => q.2) ∧
    ((p.2.length : ℚ) / (((occ.map fun q => q.2.length).sum : ℕ) : ℚ) < b.ownershipThreshold →
      applyOwnershipFilter occ b = occ.flatMap fun q => q.2) := by
  have hne : occ ≠ [] := by
    intro h
    rw [h] at hmem
    simp at hmem
  obtain ⟨y, hy⟩ : ∃ y, rustMaxByKey (fun q => q.2.length) occ = some y := by
    cases occ with
    | nil => exact absurd rfl hne
    | cons a t => exact Option.isSome_iff_exists.1 (rustMaxByKey_isSome _ a t)
  have hyMem := rustMaxByKey_mem _ _ _ hy
  have hyTop := rustMaxByKey_le _ _ _ hy
  have hkey : y.1 = p.1 := by
    by_contra hne'
    exact absurd (hyTop p hmem) (not_le.mpr (hmax y hyMem hne'))
  have hyp : y = p := List.inj_on_of_nodup_map hnodup hyMem hmem hkey
  subst hyp
  by_cases hT : (occ.map fun q => q.2.length).sum = 0
  · have hall : ∀ q ∈ occ, q.2 = [] := by
      intro q hq
      have := List.sum_eq_zero_iff.1 hT (q.2.length) (List.mem_map_of_mem _ hq)
      exact List.length_eq_zero.1 this
    have h0 : applyOwnershipFilter occ b = [] := by
      simp only [applyOwnershipFilter]
      rw [if_neg (by simpa [List.isEmpty_iff] using hne), if_pos hT]
    have hflat : ∀ (l : List (String × List Location)),
        (∀ q ∈ l, q.2 = []) → (l.flatMap fun q => q.2) = [] := by
      intro l hl
      rw [List.eq_nil_iff_forall_not_mem]
      intro a ha
      rcases List.mem_flatMap.1 ha with ⟨q, hq, hin⟩
      rw [hl q hq] at hin
      exact (List.not_mem_nil a) hin
    constructor <;> intro _ <;> rw [h0] <;> symm
    · exact hflat _ fun q hq => hall q (List.mem_of_mem_filter hq)
    · exact hflat _ hall
  · constructor <;> intro hcmp <;> simp only [applyOwnershipFilter] <;>
      rw [if_neg (by simpa [List.isEmpty_iff] using hne), if_neg hT] <;>
      simp only [hy]
    · rw [if_pos (by exact_mod_cast hcmp)]
    · rw [if_neg (not_le.mpr (by exact_mod_cast hcmp))]

/-- Witness for C4 at the spec's end-to-end scenario 3 (8 hits vs 2 hits,
threshold 1/2): the owner's hits are excluded. -/
theorem C4_ownership_filter_witness :
    applyOwnershipFilter occEx bEx = (occEx.filter fun q => q.1 ≠ pEx.1).flatMap fun q => q.2 :=
  (C4_ownership_filter bEx occEx pEx (by simp [occEx]) (by decide) (by decide)).1 (by
    have hs : (occEx.map fun q => q.2.length).sum = 10 := by decide
    have hp : pEx.2.length = 8 := by decide
    rw [hs, hp]
    norm_num [bEx])

/-! ## C5 — boundary line-scan hit condition -/

/-- Helper: every entry of `enumFrom k l` has first component ≥ `k`. -/
theorem enumFrom_fst_ge {α : Type} (k : Nat) (l : List α) :
    ∀ q ∈ List.enumFrom k l, k ≤ q.1 := by
  intro q hq
  cases q with
  | mk i x => exact (List.mem_enumFrom hq).1

/-- Helper: the indices of `enumFrom` are strictly increasing. -/
theorem enumFrom_pairwise_lt {α : Type} (l : List α) :
    ∀ k, (List.enumFrom k l).Pairwise (fun a b => a.1 < b.1) := by
  induction l with
  | nil => intro k; simp
  | cons x t ih =>
    intro k
    simp only [List.enumFrom]
    exact List.Pairwise.cons
      (fun q hq => lt_of_lt_of_le (Nat.lt_succ_self k) (enumFrom_fst_ge (k + 1) t q hq))
      (ih (k + 1))

/-- C5 (amended: the suppression check drops whitespace between the quote
and the indicator, and looks only at the indicator's first occurrence): a
scanned line yields a hit iff some indicator of the boundary is contained
in it and its first occurrence is not preceded — ignoring intervening
whitespace — by a quote character; and distinct hits of one module always
carry distinct line numbers, so at most one hit is recorded per line. -/
theorem C5_line_scan_hits (path content : String) (b : Boundary) (ℓ : Nat) (line : String)
    (h : (rustLines content)[ℓ]? = some line) :
    (scanModuleLines path content b).Pairwise (fun a c => a.line ≠ c.line) ∧
    ((∃ loc ∈ scanModuleLines path content b, loc.line = some (ℓ + 1)) ↔
      ∃ ind ∈ b.indicators,
        containsStr line ind = true ∧ isStringLiteralDefinition line ind = false) := by
  constructor
  · unfold scanModuleLines
    rw [List.pairwise_filterMap]
    have hp : (rustLines content).enum.Pairwise (fun a b => a.1 < b.1) := by
      rw [List.enum]
      exact enumFrom_pairwise_lt _ 0
    refine hp.imp ?_
    intro a c hac loc hloc loc' hloc'
    have ha : loc.line = some (a.1 + 1) := by
      revert hloc
      cases b.indicators.find? fun ind =>
          containsStr a.2 ind && !isStringLiteralDefinition a.2 ind <;> intro hloc <;>
        simp at hloc
      rw [← hloc]
    have hc : loc'.line = some (c.1 + 1) := by
      revert hloc'
      cases b.indicators.find? fun ind =>
          containsStr c.2 ind && !isStringLiteralDefinition c.2 ind <;> intro hloc' <;>
        simp at hloc'
      rw [← hloc']
    rw [ha, hc]
    intro hEq
    injection hEq with hEq
    omega
  · constructor
    · rintro ⟨loc, hloc, hline⟩
      unfold scanModuleLines at hloc
      rcases List.mem_filterMap.1 hloc with ⟨⟨i, l'⟩, hmemE, hf⟩
      cases hfind : b.indicators.find? fun ind =>
          containsStr l' ind && !isStringLiteralDefinition l' ind with
      | none => rw [hfind] at hf; simp at hf
      | some ind =>
        rw [hfind] at hf
        simp only [Option.some.injEq] at hf
        have hiℓ : i = ℓ := by
          rw [← hf] at hline
          simp only [Option.some.injEq] at hline
          omega
        subst hiℓ
        have hE := List.mem_enum hmemE
        have hl' : l' = line := by
          rcases List.getElem?_eq_some.1 h with ⟨hlt, hget⟩
          rw [hE.2, hget]
        subst hl'
        have hprop := List.find?_some hfind
        simp only [Bool.and_eq_true, Bool.not_eq_true'] at hprop
        exact ⟨ind, List.mem_of_find?_eq_some hfind, hprop.1, hprop.2⟩
    · rintro ⟨ind, hmem, hcont, hnolit⟩
      have hpE : (ℓ, line) ∈ (rustLines content).enum := by
        have h2 := List.getElem?_enum (rustLines content) ℓ
        rw [h] at h2
        exact List.getElem?_mem h2
      have hfind : (b.indicators.find? fun ind' =>
          containsStr line ind' && !isStringLiteralDefinition line ind').isSome = true :=
        List.find?_isSome.2 ⟨ind, hmem, by simp [hcont, hnolit]⟩
      obtain ⟨w, hw⟩ := Option.isSome_iff_exists.1 hfind
      refine ⟨Location.mk path (some (ℓ + 1)) (some (trimStr line)), ?_, rfl⟩
      unfold scanModuleLines
      exact List.mem_filterMap.2 ⟨(ℓ, line), hpE, by rw [hw]⟩

/-- Witness for C5 at a concrete two-line file whose second line starts
with `SELECT `. -/
theorem C5_line_scan_hits_witness :
    (scanModuleLines "src/m.rs" contentEx bEx).Pairwise (fun a c => a.line ≠ c.line) ∧
    ((∃ loc ∈ scanModuleLines "src/m.rs" contentEx bEx, loc.line = some (1 + 1)) ↔
      ∃ ind ∈ bEx.indicators,
        containsStr "SELECT * FROM t;" ind = true ∧
        isStringLiteralDefinition "SELECT * FROM t;" ind = false) :=
  C5_line_scan_hits "src/m.rs" contentEx bEx 1 "SELECT * FROM t;" (by decide)

/-! ## C6 — import resolution -/

/-- Helper: a path present in the list has a last index, which reads back
to the path. -/
theorem lastIndexOf_mem (l : List String) (p : String) (hp : p ∈ l) :
    ∃ i, lastIndexOf l p = some i ∧ l.get? i = some p := by
  obtain ⟨n, hn, hget⟩ := List.getElem_of_mem hp
  have hmemE : (n, p) ∈ l.enum := by
    have h2 := List.getElem?_enum l n
    rw [List.getElem?_eq_some.2 ⟨hn, hget⟩] at h2
    exact List.getElem?_mem h2
  have hsome : (l.enum.reverse.find? fun q => q.2 = p).isSome = true :=
    List.find?_isSome.2 ⟨(n, p), List.mem_reverse.2 hmemE, by simp⟩
  obtain ⟨q, hq⟩ := Option.isSome_iff_exists.1 hsome
  have hq2 : q.2 = p := by
    have := List.find?_some hq
    simpa using this
  have hqE : q ∈ l.enum := List.mem_reverse.1 (List.mem_of_find?_eq_some hq)
  refine ⟨q.1, ?_, ?_⟩
  · unfold lastIndexOf
    rw [hq]
  · cases q with
    | mk i x =>
      have hE := List.mem_enum hqE
      simp only at hq2
      rw [List.get?_eq_getElem?, List.getElem?_eq_some]
      exact ⟨hE.1, by rw [← hE.2, hq2]⟩

/-- Helper: a resolved import names the path of some module from the list. -/
theorem resolveImport_mem (imp : String) (modules : List Module) (t : String)
    (h : resolveImport imp modules = some t) : ∃ m ∈ modules, m.path = t := by
  cases hsp : strSplitOn imp "::" with
  | nil => rw [resolveImport, hsp] at h; simp at h
  | cons s0 rest =>
    rw [resolveImport, hsp] at h
    simp only at h
    split_ifs at h
    rcases Option.map_eq_some'.1 h with ⟨m', hm', rfl⟩
    exact ⟨m', List.mem_of_find?_eq_some hm', rfl⟩

/-- C6 (amended: only `crate::`-prefixed imports are resolved): an import
whose leading `::`-segment is not `crate`, or that is just `crate` alone,
resolves to nothing (this covers `self`/`super`/relative and external
ones alike); a `crate::`-prefixed import resolves to the first module in
list order whose (lowercased) path ends in `/<seg1>/mod.rs`, `/<seg1>.rs`,
or — given a second segment — `/<seg1>/<seg2>.rs` (or `\`-variants); and
every resolved import of every module yields an edge in the built graph
from the importing module's node to the resolved target's node. -/
theorem C6_crate_import_resolution :
    (∀ (imp : String) (modules : List Module) (s0 : String) (rest : List String),
      strSplitOn imp "::" = s0 :: rest → (s0 ≠ "crate" ∨ rest = []) →
      resolveImport imp modules = none) ∧
    (∀ (imp : String) (modules : List Module) (rest : List String),
      strSplitOn imp "::" = "crate" :: rest → rest ≠ [] →
      resolveImport imp modules =
        (modules.find? (importPathMatch rest)).map (·.path)) ∧
    (∀ (modules : List Module) (m : Module) (imp target : String),
      m ∈ modules → imp ∈ m.imports → resolveImport imp modules = some target →
      ∃ i j, (i, j) ∈ (DepGraph.build modules).edges ∧
        (DepGraph.build modules).nodes.get? i = some m.path ∧
        (DepGraph.build modules).nodes.get? j = some target) := by
  refine ⟨?_, ?_, ?_⟩
  · intro imp modules s0 rest hsp hor
    rw [resolveImport, hsp]
    rcases hor with h | h
    · simp [h]
    · subst h
      simp
  · intro imp modules rest hsp hne
    rw [resolveImport, hsp]
    simp [hne]
  · intro modules m imp target hm himp hres
    have hmp : m.path ∈ modules.map (·.path) := List.mem_map_of_mem _ hm
    obtain ⟨m', hm', rfl⟩ := resolveImport_mem imp modules target hres
    have htp : m'.path ∈ modules.map (·.path) := List.mem_map_of_mem _ hm'
    obtain ⟨i, hi, hgi⟩ := lastIndexOf_mem _ _ hmp
    obtain ⟨j, hj, hgj⟩ := lastIndexOf_mem _ _ htp
    refine ⟨i, j, ?_, hgi, hgj⟩
    simp only [DepGraph.build]
    refine List.mem_flatMap.2 ⟨m, hm, ?_⟩
    rw [hi]
    refine List.mem_filterMap.2 ⟨imp, himp, ?_⟩
    simp only [hres, hj]

/-- Witness for C6 at a concrete list where `crate::model` resolves and
produces the edge `src/user.rs → src/model.rs`. -/
theorem C6_crate_import_resolution_witness :
    ∃ i j, (i, j) ∈ (DepGraph.build [modUser, modModel]).edges ∧
      (DepGraph.build [modUser, modModel]).nodes.get? i = some modUser.path ∧
      (DepGraph.build [modUser, modModel]).nodes.get? j = some "src/model.rs" :=
  C6_crate_import_resolution.2.2 [modUser, modModel] modUser "crate::model" "src/model.rs"
    (by simp) (by decide) (by decide)

/-- Counterexample to C6 as stated: the import `model` has no self/relative
prefix and matches `src/model.rs` under the claim's rules, yet the code
resolves it to nothing (only `crate::`-prefixed imports are resolved) and
the built graph has no edge at all. -/
theorem C6_plain_import_counterexample :
    specImportMatches "model" modModel = true ∧
    (startsWithStr "model" "self" = false ∧ startsWithStr "model" "super" = false ∧
     startsWithStr "model" "./" = false ∧ startsWithStr "model" "../" = false) ∧
    resolveImport "model" [modApp, modModel] = none ∧
    (DepGraph.build [modApp, modModel]).edges = [] := by decide

/-- Counterexample to C5 as stated: in `let q = "  SELECT x";` the first
occurrence of the indicator `SELECT ` is immediately preceded by a *space*
(not a quote), yet the scanner records no hit, because the source's
`trim_end()` lets the quote two characters earlier suppress the line. -/
theorem C5_quote_whitespace_counterexample :
    containsStr lineQuoteWs "SELECT " = true ∧
    specImmediatelyQuotePreceded lineQuoteWs "SELECT " = false ∧
    isStringLiteralDefinition lineQuoteWs "SELECT " = true ∧
    scanModuleLines "src/m.rs" lineQuoteWs bEx = [] := by decide

theorem C8_fat_module_iff_witness :
    (fatModuleCheck cfgEx mFat).isSome = true ↔
      (cfgEx.thresholds.fatModuleLines ≤ mFat.lines ∧
       cfgEx.thresholds.fatModulePrivateFunctions ≤
         (mFat.definitions.filter fun d =>
           d.kind = .function ∧ d.visibility = .private_).length ∧
       cfgEx.thresholds.fatModuleLinesPerExport <
         (mFat.lines : ℚ) / (max mFat.exports.length 1 : ℚ)) :=
  C8_fat_module_iff.1 cfgEx mFat (by decide)

/-! ## Reachability: the executable fixpoint matches `Reach` -/

theorem mem_reachIter_self (g : DepGraph) (u : Nat) : ∀ k, u ∈ reachIter g u k
  | 0 => by simp [reachIter]
  | k + 1 => by
      simp only [reachIter]
      exact List.mem_append_left _ (mem_reachIter_self g u k)

theorem reachIter_mono (g : DepGraph) (u k : Nat) :
    reachIter g u k ⊆ reachIter g u (k + 1) := by
  intro x hx
  simp only [reachIter]
  exact List.mem_append_left _ hx

theorem reachIter_mono_le (g : DepGraph) (u : Nat) {k m : Nat} (h : k ≤ m) :
    reachIter g u k ⊆ reachIter g u m := by
  induction h with
  | refl => exact fun x hx => hx
  | step _ ih => exact fun x hx => reachIter_mono g u _ (ih hx)

theorem reachIter_sound (g : DepGraph) (u : Nat) :
    ∀ k v, v ∈ reachIter g u k → Reach g u v := by
  intro k
  induction k with
  | zero =>
    intro v hv
    simp only [reachIter, List.mem_singleton] at hv
    subst hv
    exact Relation.ReflTransGen.refl
  | succ k ih =>
    intro v hv
    simp only [reachIter] at hv
    rcases List.mem_append.1 hv with h | h
    · exact ih v h
    · rcases List.mem_map.1 h with ⟨e, he, rfl⟩
      have hf := List.mem_filter.1 he
      exact Relation.ReflTransGen.tail (ih e.1 (by simpa using hf.2)) hf.1

theorem reachIter_step (g : DepGraph) (u k a b : Nat)
    (ha : a ∈ reachIter g u k) (hab : (a, b) ∈ g.edges) :
    b ∈ reachIter g u (k + 1) := by
  simp only [reachIter]
  exact List.mem_append_right _
    (List.mem_map.2 ⟨(a, b), List.mem_filter.2 ⟨hab, by simpa using ha⟩, rfl⟩)

theorem reachIter_subset_bound (g : DepGraph) (u : Nat) :
    ∀ k, (reachIter g u k).toFinset ⊆ insert u ((g.edges.map (·.2)).toFinset) := by
  intro k
  induction k with
  | zero =>
    intro x hx
    have hxu : x = u := by simpa [reachIter] using hx
    subst hxu
    exact Finset.mem_insert_self _ _
  | succ k ih =>
    intro x hx
    simp only [reachIter, List.toFinset_append, Finset.mem_union] at hx
    rcases hx with h | h
    · exact ih h
    · simp only [List.mem_toFinset, List.mem_map] at h
      rcases h with ⟨e, he, rfl⟩
      have := (List.mem_filter.1 he).1
      exact Finset.mem_insert_of_mem (List.mem_toFinset.2 (List.mem_map_of_mem _ this))

theorem exists_stabilization (g : DepGraph) (u : Nat) :
    ∃ k ≤ g.edges.length, ∀ x, x ∈ reachIter g u (k + 1) → x ∈ reachIter g u k := by
  by_contra hcon
  push_neg at hcon
  have grow : ∀ k, k ≤ g.edges.length →
      (reachIter g u k).toFinset.card + 1 ≤ (reachIter g u (k + 1)).toFinset.card := by
    intro k hk
    obtain ⟨x, hx1, hx0⟩ := hcon k hk
    have hss : (reachIter g u k).toFinset ⊂ (reachIter g u (k + 1)).toFinset := by
      refine ⟨fun y hy => List.mem_toFinset.2 (reachIter_mono g u k (List.mem_toFinset.1 hy)), ?_⟩
      intro hsub
      exact hx0 (List.mem_toFinset.1 (hsub (List.mem_toFinset.2 hx1)))
    exact Finset.card_lt_card hss
  have hlin : ∀ k, k ≤ g.edges.length + 1 → k + 1 ≤ (reachIter g u k).toFinset.card := by
    intro k
    induction k with
    | zero =>
      intro _
      simp [reachIter]
    | succ k ih =>
      intro hk
      have h1 := ih (by omega)
      have h2 := grow k (by omega)
      omega
  have hbig := hlin (g.edges.length + 1) le_rfl
  have hb := Finset.card_le_card (reachIter_subset_bound g u (g.edges.length + 1))
  have hbound : (insert u ((g.edges.map (·.2)).toFinset)).card ≤ g.edges.length + 1 := by
    calc (insert u ((g.edges.map (·.2)).toFinset)).card
        ≤ ((g.edges.map (·.2)).toFinset).card + 1 := Finset.card_insert_le _ _
      _ ≤ (g.edges.map (·.2)).length + 1 := by
          have := (g.edges.map (·.2)).toFinset_card_le
          omega
      _ = g.edges.length + 1 := by simp
  omega

theorem reachableB_iff (g : DepGraph) (u v : Nat) :
    reachableB g u v = true ↔ Reach g u v := by
  constructor
  · intro h
    exact reachIter_sound g u _ v (by simpa [reachableB] using h)
  · intro h
    obtain ⟨k, hk, hst⟩ := exists_stabilization g u
    have main : ∀ w, Reach g u w → w ∈ reachIter g u k := by
      intro w hw
      induction hw with
      | refl => exact mem_reachIter_self g u k
      | tail _ hedge ih => exact hst _ (reachIter_step g u k _ _ ih hedge)
    simp only [reachableB, decide_eq_true_eq]
    exact reachIter_mono_le g u (by omega) (main v h)

instance (g : DepGraph) (u v : Nat) : Decidable (Reach g u v) :=
  decidable_of_iff _ (reachableB_iff g u v)

/-- Helper: membership in `outNeighbors` is having an edge. -/
theorem mem_outNeighbors (g : DepGraph) (u v : Nat) :
    v ∈ outNeighbors g u ↔ (u, v) ∈ g.edges := by
  simp only [outNeighbors, List.mem_reverse, List.mem_map, List.mem_filter]
  constructor
  · rintro ⟨e, ⟨he, hfst⟩, rfl⟩
    simp only [decide_eq_true_eq] at hfst
    rw [← hfst]
    exact he
  · intro h
    exact ⟨(u, v), ⟨h, by simp⟩, rfl⟩

/-- Helper: membership in `inNeighbors` is having a reverse edge. -/
theorem mem_inNeighbors (g : DepGraph) (u v : Nat) :
    v ∈ inNeighbors g u ↔ (v, u) ∈ g.edges := by
  simp only [inNeighbors, List.mem_reverse, List.mem_map, List.mem_filter]
  constructor
  · rintro ⟨e, ⟨he, hsnd⟩, rfl⟩
    simp only [decide_eq_true_eq] at hsnd
    rw [← hsnd]
    exact he
  · intro h
    exact ⟨(v, u), ⟨h, by simp⟩, rfl⟩

/-- Helper: `InCycle` is decidable through `reachableB`. -/
theorem inCycleB_iff (g : DepGraph) (u : Nat) :
    ((outNeighbors g u).any fun v => reachableB g v u) = true ↔ InCycle g u := by
  rw [List.any_eq_true]
  constructor
  · rintro ⟨v, hv, hb⟩
    exact ⟨v, (mem_outNeighbors g u v).1 hv, (reachableB_iff g v u).1 hb⟩
  · rintro ⟨v, he, hr⟩
    exact ⟨v, (mem_outNeighbors g u v).2 he, (reachableB_iff g v u).2 hr⟩

instance (g : DepGraph) (u : Nat) : Decidable (InCycle g u) :=
  decidable_of_iff _ (inCycleB_iff g u)

/-! ## C1 — strongly-connected-component issues -/

instance (g : DepGraph) (s : Finset Nat) : Decidable (IsSccSet g s) := by
  unfold IsSccSet
  infer_instance

instance (g : DepGraph) (s : Finset Nat) : Decidable (QualifyingComponent g s) :=
  decidable_of_iff (IsSccSet g s ∧ (1 < s.card ∨ ∃ u ∈ s, s = {u} ∧ hasEdge g u u)) (by
    unfold QualifyingComponent
    constructor
    · rintro ⟨h1, h2⟩
      refine ⟨h1, ?_⟩
      rcases h2 with h | ⟨u, -, he, hl⟩
      · exact Or.inl h
      · exact Or.inr ⟨u, he, hl⟩
    · rintro ⟨h1, h2⟩
      refine ⟨h1, ?_⟩
      rcases h2 with h | ⟨u, he, hl⟩
      · exact Or.inl h
      · exact Or.inr ⟨u, by rw [he]; exact Finset.mem_singleton_self u, he, hl⟩)

/-- Helper: membership in a component list. -/
theorem mem_classOf (g : DepGraph) (u v : Nat) :
    v ∈ classOf g u ↔ v < g.nodes.length ∧ Reach g u v ∧ Reach g v u := by
  simp [classOf, List.mem_filter, List.mem_range, mutualB, Bool.and_eq_true, reachableB_iff,
    and_assoc]

/-- Helper: a node in range is in its own component. -/
theorem classOf_self (g : DepGraph) (u : Nat) (h : u < g.nodes.length) : u ∈ classOf g u :=
  (mem_classOf g u u).2 ⟨h, Relation.ReflTransGen.refl, Relation.ReflTransGen.refl⟩

/-- Helper: component lists are duplicate-free. -/
theorem classOf_nodup (g : DepGraph) (u : Nat) : (classOf g u).Nodup :=
  (List.nodup_range _).filter _

/-- Helper: mutually reachable nodes have literally equal component lists. -/
theorem classOf_congr (g : DepGraph) (u v : Nat) (h1 : Reach g u v) (h2 : Reach g v u) :
    classOf g u = classOf g v := by
  unfold classOf
  apply List.filter_congr
  intro x _
  have hiff : (mutualB g u x = true) ↔ (mutualB g v x = true) := by
    simp only [mutualB, Bool.and_eq_true, reachableB_iff]
    constructor
    · rintro ⟨a, b⟩
      exact ⟨h2.trans a, b.trans h1⟩
    · rintro ⟨a, b⟩
      exact ⟨h1.trans a, b.trans h2⟩
  cases hu : mutualB g u x <;> cases hv : mutualB g v x <;> simp_all

/-- Helper: the representative condition, relationally. -/
theorem isClassRep_iff (g : DepGraph) (u : Nat) :
    isClassRep g u = true ↔ ∀ v < u, ¬(Reach g u v ∧ Reach g v u) := by
  rw [isClassRep, List.all_eq_true]
  constructor
  · intro h v hv hmut
    have hm := h v (List.mem_range.2 hv)
    have hmv : mutualB g u v = true := by
      rw [mutualB, Bool.and_eq_true]
      exact ⟨(reachableB_iff g u v).2 hmut.1, (reachableB_iff g v u).2 hmut.2⟩
    rw [hmv] at hm
    simp at hm
  · intro h v hv
    have hvu := List.mem_range.1 hv
    cases hmv : mutualB g u v with
    | false => simp
    | true =>
      exfalso
      rw [mutualB, Bool.and_eq_true] at hmv
      exact h v hvu ⟨(reachableB_iff g u v).1 hmv.1, (reachableB_iff g v u).1 hmv.2⟩

/-- Helper: mutual reachability between distinct nodes puts `u` on a
cycle. -/
theorem inCycle_of_mutual_ne (g : DepGraph) (u v : Nat) (hne : u ≠ v)
    (h1 : Reach g u v) (h2 : Reach g v u) : InCycle g u := by
  rcases Relation.ReflTransGen.cases_head h1 with rfl | ⟨w, hw, hwv⟩
  · exact absurd rfl hne
  · exact ⟨w, hw, hwv.trans h2⟩

/-- Helper: the self-loop test of the detector. -/
theorem selfLoopB_iff (g : DepGraph) (u : Nat) :
    ((outNeighbors g u).any fun n => n = u) = true ↔ hasEdge g u u := by
  simp only [List.any_eq_true, decide_eq_true_eq]
  constructor
  · rintro ⟨x, hx, hxu⟩
    show (u, u) ∈ g.edges
    exact hxu ▸ (mem_outNeighbors g u x).1 hx
  · intro h
    exact ⟨u, (mem_outNeighbors g u u).2 h, rfl⟩

/-- Helper: a duplicate-free list whose members all equal `a` and which
contains `a` is `[a]`. -/
theorem eq_singleton_of_nodup {α : Type} (l : List α) (hl : l.Nodup) (a : α)
    (ha : a ∈ l) (hall : ∀ x ∈ l, x = a) : l = [a] := by
  cases l with
  | nil => simp at ha
  | cons b t =>
    have hb : b = a := hall b (List.mem_cons_self _ _)
    subst hb
    have ht : t = [] := by
      cases t with
      | nil => rfl
      | cons c u =>
        have hc : c = b := hall c (List.mem_cons_of_mem _ (List.mem_cons_self _ _))
        subst hc
        exact absurd (List.mem_cons_self c u) ((List.nodup_cons.1 hl).1 ∘ fun h => h)
    rw [ht]

/-- Helper: `countP` of a `filterMap`. -/
theorem countP_filterMap {α β : Type} (p : β → Bool) (f : α → Option β) (l : List α) :
    (l.filterMap f).countP p = l.countP fun a => ((f a).map p).getD false := by
  induction l with
  | nil => rfl
  | cons x t ih =>
    cases hx : f x with
    | none => simp [List.filterMap_cons, hx, List.countP_cons, ih]
    | some b =>
      simp only [List.filterMap_cons, hx, List.countP_cons, ih, Option.map_some',
        Option.getD_some]

/-- Helper: a duplicate-free list with a unique satisfying member has
`countP = 1`. -/
theorem countP_eq_one_of_unique {α : Type} (l : List α) (hl : l.Nodup) (q : α → Bool)
    (a : α) (ha : a ∈ l) (hq : q a = true) (huniq : ∀ b ∈ l, q b = true → b = a) :
    l.countP q = 1 := by
  rw [List.countP_eq_length_filter]
  have : l.filter q = [a] := by
    apply eq_singleton_of_nodup _ (hl.filter q)
    · exact List.mem_filter.2 ⟨ha, hq⟩
    · intro x hx
      have := List.mem_filter.1 hx
      exact huniq x this.1 this.2
  rw [this]
  rfl

/-- Helper: `filterMap get?` over an in-range index list is `map pathAt`. -/
theorem filterMap_get_eq_map_pathAt (g : DepGraph) (l : List Nat)
    (h : ∀ x ∈ l, x < g.nodes.length) :
    (l.filterMap fun idx => g.nodes.get? idx) = l.map (pathAt g) := by
  induction l with
  | nil => rfl
  | cons x t ih =>
    have hx := h x (List.mem_cons_self _ _)
    have hget : g.nodes.get? x = some (pathAt g x) := by
      rw [List.get?_eq_getElem?, List.getElem?_eq_some]
      exact ⟨hx, (List.getD_eq_getElem g.nodes "" hx).symm⟩
    simp only [List.filterMap_cons, hget, List.map_cons]
    rw [ih fun y hy => h y (List.mem_cons_of_mem _ hy)]

/-- Helper: the locations of a circular-dependency issue list exactly the
cycle's paths. -/
theorem mkCircularDependency_locPaths (cycle : List String) :
    (Issue.mkCircularDependency cycle).locations.map (·.path) = cycle := by
  simp [Issue.mkCircularDependency, List.map_map, Function.comp_def]

/-- Helper: what `circularIssueOf` does on a component of a node in range. -/
theorem circularIssueOf_classOf (g : DepGraph) (u : Nat) (hu : u < g.nodes.length) :
    (1 < (classOf g u).length →
      circularIssueOf g (classOf g u) =
        some (Issue.mkCircularDependency ((classOf g u).map (pathAt g)))) ∧
    (classOf g u = [u] → hasEdge g u u →
      circularIssueOf g (classOf g u) =
        some (Issue.mkCircularDependency [pathAt g u])) ∧
    (classOf g u = [u] → ¬hasEdge g u u → circularIssueOf g (classOf g u) = none) := by
  have hrange : ∀ x ∈ classOf g u, x < g.nodes.length := fun x hx =>
    ((mem_classOf g u x).1 hx).1
  refine ⟨?_, ?_, ?_⟩
  · intro hlen
    unfold circularIssueOf
    rw [if_pos hlen, filterMap_get_eq_map_pathAt g _ hrange]
    rw [if_neg (by
      intro hemp
      rw [List.isEmpty_iff, List.map_eq_nil_iff] at hemp
      rw [hemp] at hlen
      simp at hlen)]
  · intro hsing hloop
    rw [hsing]
    unfold circularIssueOf
    rw [if_neg (by simp)]
    simp only
    rw [if_pos ((selfLoopB_iff g u).2 hloop)]
    have hget : g.nodes.get? u = some (pathAt g u) := by
      rw [List.get?_eq_getElem?, List.getElem?_eq_some]
      exact ⟨hu, (List.getD_eq_getElem g.nodes "" hu).symm⟩
    rw [hget]
    rfl
  · intro hsing hloop
    rw [hsing]
    unfold circularIssueOf
    rw [if_neg (by simp)]
    simp only
    rw [if_neg fun hc => hloop ((selfLoopB_iff g u).1 hc)]

/-- Helper: the component list of any member of an SCC set enumerates that
set. -/
theorem sccSet_eq_classOf (g : DepGraph) (s : Finset Nat) (hs : IsSccSet g s)
    (u : Nat) (hu : u ∈ s) : s = (classOf g u).toFinset := by
  obtain ⟨-, hrange, hmut, hmax⟩ := hs
  ext v
  simp only [List.mem_toFinset, mem_classOf]
  constructor
  · intro hv
    exact ⟨hrange v hv, (hmut u hu v hv).1, (hmut u hu v hv).2⟩
  · rintro ⟨hvn, h1, h2⟩
    exact hmax u hu v hvn h1 h2

/-- Helper: the toFinset of a component is an SCC set. -/
theorem classOf_isSccSet (g : DepGraph) (u : Nat) (hu : u < g.nodes.length) :
    IsSccSet g (classOf g u).toFinset := by
  refine ⟨⟨u, List.mem_toFinset.2 (classOf_self g u hu)⟩, ?_, ?_, ?_⟩
  · intro v hv
    exact ((mem_classOf g u v).1 (List.mem_toFinset.1 hv)).1
  · intro x hx y hy
    obtain ⟨-, hux, hxu⟩ := (mem_classOf g u x).1 (List.mem_toFinset.1 hx)
    obtain ⟨-, huy, hyu⟩ := (mem_classOf g u y).1 (List.mem_toFinset.1 hy)
    exact ⟨hxu.trans huy, hyu.trans hux⟩
  · intro x hx v hvn h1 h2
    obtain ⟨-, hux, hxu⟩ := (mem_classOf g u x).1 (List.mem_toFinset.1 hx)
    exact List.mem_toFinset.2 ((mem_classOf g u v).2 ⟨hvn, hux.trans h1, h2.trans hxu⟩)

/-- Helper: a component of length ≤ 1 is the singleton of its node. -/
theorem classOf_eq_singleton_of_short (g : DepGraph) (u : Nat) (hu : u < g.nodes.length)
    (hlen : ¬1 < (classOf g u).length) : classOf g u = [u] := by
  have hmem := classOf_self g u hu
  apply eq_singleton_of_nodup _ (classOf_nodup g u) u hmem
  intro x hx
  cases hcl : classOf g u with
  | nil =>
    rw [hcl] at hmem
    simp at hmem
  | cons b t =>
    have hT : t = [] := by
      rw [hcl] at hlen
      simp only [List.length_cons] at hlen
      rw [← List.length_eq_zero]
      omega
    subst hT
    rw [hcl] at hx hmem
    simp only [List.mem_singleton] at hx hmem
    rw [hx, hmem]

/-- Helper: under acyclicity every component is a singleton. -/
theorem classOf_eq_singleton_of_acyclic (g : DepGraph) (u : Nat) (hu : u < g.nodes.length)
    (hacyc : ∀ w, ¬InCycle g w) : classOf g u = [u] := by
  apply eq_singleton_of_nodup _ (classOf_nodup g u) u (classOf_self g u hu)
  intro x hx
  obtain ⟨-, h1, h2⟩ := (mem_classOf g u x).1 hx
  by_contra hne
  exact hacyc u (inCycle_of_mutual_ne g u x (fun he => hne he.symm) h1 h2)

/-- Helper: the path sets carried by issues that the detector emits for a
representative's component. -/
theorem repIssue_pathset (g : DepGraph) (u : Nat) (hu : u < g.nodes.length)
    (i : Issue) (hi : circularIssueOf g (classOf g u) = some i) :
    (i.locations.map (·.path)).toFinset = (classOf g u).toFinset.image (pathAt g) := by
  have himg : ((classOf g u).map (pathAt g)).toFinset =
      (classOf g u).toFinset.image (pathAt g) := by
    ext x
    simp
  by_cases hlen : 1 < (classOf g u).length
  · rw [(circularIssueOf_classOf g u hu).1 hlen] at hi
    injection hi with hi
    rw [← hi, mkCircularDependency_locPaths]
    exact himg
  · have hsing := classOf_eq_singleton_of_short g u hu hlen
    by_cases hloop : hasEdge g u u
    · rw [(circularIssueOf_classOf g u hu).2.1 hsing hloop] at hi
      injection hi with hi
      rw [← hi, mkCircularDependency_locPaths, hsing]
      simp
    · rw [(circularIssueOf_classOf g u hu).2.2 hsing hloop] at hi
      exact Option.noConfusion hi

/-- C1: on every graph with distinct node paths, the circular-dependency
detector reports exactly one issue per strongly-connected component with at
least two nodes and exactly one issue per singleton component with a
self-loop, each issue's location paths being exactly that component's
member paths; every reported issue arises from such a component; and on a
graph with no such component (acyclic, no self-loops) the issue list is
empty. -/
theorem C1_circular_scc (g : DepGraph) (hn : g.nodes.Nodup) :
    (∀ s : Finset Nat, QualifyingComponent g s →
      (detectCircularDependencies g).countP
        (fun i => (i.locations.map (·.path)).toFinset = s.image (pathAt g)) = 1) ∧
    (∀ i ∈ detectCircularDependencies g, ∃ s, QualifyingComponent g s ∧
      (i.locations.map (·.path)).toFinset = s.image (pathAt g)) ∧
    ((∀ u, ¬InCycle g u) → detectCircularDependencies g = []) := by
  have pathInj : ∀ a, a < g.nodes.length → ∀ b, b < g.nodes.length →
      pathAt g a = pathAt g b → a = b := by
    intro a ha b hb h
    unfold pathAt at h
    rw [List.getD_eq_getElem _ _ ha, List.getD_eq_getElem _ _ hb] at h
    exact (List.Nodup.getElem_inj_iff hn).1 h
  refine ⟨?_, ?_, ?_⟩
  · intro s hq
    have hne := hq.1.1
    have hu0s := s.min'_mem hne
    have hu0n : s.min' hne < g.nodes.length := hq.1.2.1 _ hu0s
    have hseq : s = (classOf g (s.min' hne)).toFinset := sccSet_eq_classOf g s hq.1 _ hu0s
    have hrep : isClassRep g (s.min' hne) = true := by
      rw [isClassRep_iff]
      intro v hv hmut
      have hvn : v < g.nodes.length := lt_trans hv hu0n
      have hvs : v ∈ s := hq.1.2.2.2 _ hu0s v hvn hmut.1 hmut.2
      exact absurd (s.min'_le v hvs) (by omega)
    rw [detectCircularDependencies, countP_filterMap, tarjanSCC, List.countP_map]
    apply countP_eq_one_of_unique _ ((List.nodup_range _).filter _) _ (s.min' hne)
    · exact List.mem_filter.2 ⟨List.mem_range.2 hu0n, hrep⟩
    · simp only [Function.comp_apply]
      rcases hq.2 with hcard | ⟨w, hw, hloop⟩
      · have hlen : 1 < (classOf g (s.min' hne)).length := by
          rw [hseq, List.toFinset_card_of_nodup (classOf_nodup g _)] at hcard
          exact hcard
        rw [(circularIssueOf_classOf g _ hu0n).1 hlen]
        simp only [Option.map_some', Option.getD_some, decide_eq_true_eq,
          mkCircularDependency_locPaths]
        conv_rhs => rw [hseq]
        ext x
        simp
      · have hw0 : s.min' hne = w := Finset.mem_singleton.1 (hw ▸ hu0s)
        have hsing : classOf g (s.min' hne) = [s.min' hne] := by
          apply eq_singleton_of_nodup _ (classOf_nodup g _) _ (classOf_self g _ hu0n)
          intro x hx
          have hxs : x ∈ s := by
            rw [hseq]
            exact List.mem_toFinset.2 hx
          rw [hw] at hxs
          rw [Finset.mem_singleton.1 hxs, ← hw0]
        have hloop' : hasEdge g (s.min' hne) (s.min' hne) := by
          rw [hw0]
          exact hloop
        rw [(circularIssueOf_classOf g _ hu0n).2.1 hsing hloop']
        simp only [Option.map_some', Option.getD_some, decide_eq_true_eq,
          mkCircularDependency_locPaths]
        conv_rhs => rw [hw]
        rw [← hw0]
        simp
    · intro v hvR hqv
      have hvn : v < g.nodes.length := List.mem_range.1 (List.mem_filter.1 hvR).1
      have hvrep : isClassRep g v = true := (List.mem_filter.1 hvR).2
      simp only [Function.comp_apply] at hqv
      cases hciv : circularIssueOf g (classOf g v) with
      | none =>
        rw [hciv] at hqv
        simp at hqv
      | some i =>
        rw [hciv] at hqv
        simp only [Option.map_some', Option.getD_some, decide_eq_true_eq] at hqv
        have hps2 := repIssue_pathset g v hvn i hciv
        have himg : (classOf g v).toFinset.image (pathAt g) =
            (classOf g (s.min' hne)).toFinset.image (pathAt g) := by
          rw [← hps2, hqv]
          conv_lhs => rw [hseq]
        have hvmem : v ∈ classOf g (s.min' hne) := by
          have h1 : pathAt g v ∈ (classOf g v).toFinset.image (pathAt g) :=
            Finset.mem_image_of_mem _ (List.mem_toFinset.2 (classOf_self g v hvn))
          rw [himg] at h1
          rcases Finset.mem_image.1 h1 with ⟨x, hx, hxe⟩
          have hxn : x < g.nodes.length :=
            ((mem_classOf g _ x).1 (List.mem_toFinset.1 hx)).1
          have hxv : x = v := pathInj x hxn v hvn hxe
          rw [← hxv]
          exact List.mem_toFinset.1 hx
        obtain ⟨-, h1, h2⟩ := (mem_classOf g (s.min' hne) v).1 hvmem
        by_contra hvne
        rcases Nat.lt_or_ge v (s.min' hne) with hlt | hge
        · exact (isClassRep_iff g (s.min' hne)).1 hrep v hlt ⟨h1, h2⟩
        · have hlt : s.min' hne < v := by omega
          exact (isClassRep_iff g v).1 hvrep (s.min' hne) hlt ⟨h2, h1⟩
  · intro i hi
    rw [detectCircularDependencies] at hi
    rcases List.mem_filterMap.1 hi with ⟨c, hc, hci⟩
    rw [tarjanSCC] at hc
    rcases List.mem_map.1 hc with ⟨u, huR, rfl⟩
    have hun : u < g.nodes.length := List.mem_range.1 (List.mem_filter.1 huR).1
    have hps := repIssue_pathset g u hun i hci
    refine ⟨(classOf g u).toFinset, ⟨classOf_isSccSet g u hun, ?_⟩, hps⟩
    by_cases hlen : 1 < (classOf g u).length
    · left
      rwa [List.toFinset_card_of_nodup (classOf_nodup g u)]
    · have hsing := classOf_eq_singleton_of_short g u hun hlen
      by_cases hloop : hasEdge g u u
      · right
        refine ⟨u, ?_, hloop⟩
        rw [hsing]
        rfl
      · exfalso
        rw [(circularIssueOf_classOf g u hun).2.2 hsing hloop] at hci
        exact Option.noConfusion hci
  · intro hacyc
    rw [detectCircularDependencies, List.filterMap_eq_nil_iff]
    intro c hc
    rw [tarjanSCC] at hc
    rcases List.mem_map.1 hc with ⟨u, huR, rfl⟩
    have hun : u < g.nodes.length := List.mem_range.1 (List.mem_filter.1 huR).1
    have hsing := classOf_eq_singleton_of_acyclic g u hun hacyc
    have hloop : ¬hasEdge g u u := by
      intro h
      exact hacyc u ⟨u, h, Relation.ReflTransGen.refl⟩
    exact (circularIssueOf_classOf g u hun).2.2 hsing hloop

/-- Witness for C1 at the three-node cycle `a → b → c → a`: exactly one
issue, whose locations are the three paths. -/
theorem C1_circular_scc_witness :
    (detectCircularDependencies gEx3).countP
      (fun i => (i.locations.map (·.path)).toFinset =
        ({0, 1, 2} : Finset Nat).image (pathAt gEx3)) = 1 :=
  (C1_circular_scc gEx3 (by decide)).1 {0, 1, 2} (by decide)

/-! ## C2 — cycle-tolerant topological order: relaxation lemmas -/

/-- Helper: relaxation keeps the degree table's length. -/
theorem relaxAll_fst_length (vis : Finset Nat) :
    ∀ (ws deg q : List Nat), (relaxAll vis ws deg q).1.length = deg.length := by
  intro ws
  induction ws with
  | nil => intro deg q; rfl
  | cons w t ih =>
    intro deg q
    cases hw : deg.get? w with
    | none =>
      simp only [relaxAll, hw]
      exact ih deg q
    | some d =>
      simp only [relaxAll, hw]
      split <;> rw [ih, List.length_set]

/-- Helper: relaxation subtracts each neighbor occurrence from its degree. -/
theorem relaxAll_deg (vis : Finset Nat) :
    ∀ (ws deg q : List Nat) (v : Nat),
      (relaxAll vis ws deg q).1.get? v = (deg.get? v).map fun d => d - ws.count v := by
  intro ws
  induction ws with
  | nil =>
    intro deg q v
    simp [relaxAll]
  | cons w t ih =>
    intro deg q v
    cases hw : deg.get? w with
    | none =>
      simp only [relaxAll, hw]
      rw [ih]
      by_cases hvw : v = w
      · subst hvw
        rw [hw]
        rfl
      · rw [List.count_cons_of_ne hvw]
    | some d =>
      have hwlt : w < deg.length := by
        rw [List.get?_eq_getElem?] at hw
        exact (List.getElem?_eq_some.1 hw).1
      simp only [relaxAll, hw]
      have key : ∀ q', (relaxAll vis t (deg.set w (d - 1)) q').1.get? v =
          (deg.get? v).map fun x => x - (w :: t).count v := by
        intro q'
        rw [ih]
        by_cases hvw : v = w
        · subst hvw
          have h1 : (deg.set v (d - 1)).get? v = some (d - 1) := by
            rw [List.get?_eq_getElem?]
            exact List.getElem?_set_self hwlt
          rw [h1, hw, List.count_cons_self]
          simp only [Option.map_some']
          congr 1
          omega
        · have h1 : (deg.set w (d - 1)).get? v = deg.get? v := by
            simp only [List.get?_eq_getElem?]
            exact List.getElem?_set_ne fun h => hvw h.symm
          rw [h1, List.count_cons_of_ne hvw]
      split <;> exact key _

/-- Helper: relaxation only appends to the queue, and appends only
in-range unvisited neighbors. -/
theorem relaxAll_queue_mono (vis : Finset Nat) :
    ∀ (ws deg q : List Nat), ∃ pushed, (relaxAll vis ws deg q).2 = q ++ pushed ∧
      ∀ w ∈ pushed, w ∈ ws ∧ w < deg.length ∧ w ∉ vis := by
  intro ws
  induction ws with
  | nil =>
    intro deg q
    exact ⟨[], by simp [relaxAll], by simp⟩
  | cons w t ih =>
    intro deg q
    cases hw : deg.get? w with
    | none =>
      obtain ⟨p, hp, hprop⟩ := ih deg q
      refine ⟨p, by simp only [relaxAll, hw]; exact hp, ?_⟩
      intro x hx
      obtain ⟨h1, h2, h3⟩ := hprop x hx
      exact ⟨List.mem_cons_of_mem _ h1, h2, h3⟩
    | some d =>
      have hwlt : w < deg.length := by
        rw [List.get?_eq_getElem?] at hw
        exact (List.getElem?_eq_some.1 hw).1
      by_cases hc : d - 1 = 0 ∧ w ∉ vis
      · obtain ⟨p, hp, hprop⟩ := ih (deg.set w (d - 1)) (q ++ [w])
        refine ⟨w :: p, ?_, ?_⟩
        · simp only [relaxAll, hw]
          rw [if_pos hc, hp]
          simp
        · intro x hx
          rcases List.mem_cons.1 hx with rfl | hx'
          · exact ⟨List.mem_cons_self _ _, hwlt, hc.2⟩
          · obtain ⟨h1, h2, h3⟩ := hprop x hx'
            rw [List.length_set] at h2
            exact ⟨List.mem_cons_of_mem _ h1, h2, h3⟩
      · obtain ⟨p, hp, hprop⟩ := ih (deg.set w (d - 1)) q
        refine ⟨p, ?_, ?_⟩
        · simp only [relaxAll, hw]
          rw [if_neg hc, hp]
        · intro x hx
          obtain ⟨h1, h2, h3⟩ := hprop x hx
          rw [List.length_set] at h2
          exact ⟨List.mem_cons_of_mem _ h1, h2, h3⟩

/-- Helper: a degree that drains to zero during relaxation gets queued. -/
theorem relaxAll_push (vis : Finset Nat) :
    ∀ (ws deg q : List Nat) (w d : Nat), w ∉ vis → deg.get? w = some d → d ≠ 0 →
      d - ws.count w = 0 → w ∈ (relaxAll vis ws deg q).2 := by
  intro ws
  induction ws with
  | nil =>
    intro deg q w d _ _ hd hcnt
    simp only [List.count_nil, Nat.sub_zero] at hcnt
    exact absurd hcnt hd
  | cons w' t ih =>
    intro deg q w d hvis hget hd hcnt
    cases hw' : deg.get? w' with
    | none =>
      have hne : w ≠ w' := by
        intro h
        rw [h, hw'] at hget
        exact Option.noConfusion hget
      simp only [relaxAll, hw']
      exact ih deg q w d hvis hget hd (by rwa [List.count_cons_of_ne hne] at hcnt)
    | some d' =>
      have hw'lt : w' < deg.length := by
        rw [List.get?_eq_getElem?] at hw'
        exact (List.getElem?_eq_some.1 hw').1
      simp only [relaxAll, hw']
      by_cases hww : w = w'
      · subst hww
        have hdd : d' = d := Option.some.inj (hw'.symm.trans hget)
        subst hdd
        rw [List.count_cons_self] at hcnt
        by_cases hz : d' - 1 = 0
        · rw [if_pos ⟨hz, hvis⟩]
          obtain ⟨p, hp, -⟩ := relaxAll_queue_mono vis t (deg.set w (d' - 1)) (q ++ [w])
          rw [hp]
          simp
        · rw [if_neg (by rintro ⟨h0, -⟩; exact hz h0)]
          refine ih _ _ w (d' - 1) hvis ?_ hz (by omega)
          rw [List.get?_eq_getElem?]
          exact List.getElem?_set_self hw'lt
      · have hget' : (deg.set w' (d' - 1)).get? w = some d := by
          rw [List.get?_eq_getElem?, List.getElem?_set_ne (fun h => hww h.symm),
            ← List.get?_eq_getElem?]
          exact hget
        have hcnt' : d - t.count w = 0 := by rwa [List.count_cons_of_ne hww] at hcnt
        split
        · exact ih _ _ w d hvis hget' hd hcnt'
        · exact ih _ _ w d hvis hget' hd hcnt'

/-- Helper: a neighbor enqueued by relaxation was already queued or has
drained to degree zero. -/
theorem relaxAll_queue_zero (vis : Finset Nat) :
    ∀ (ws deg q : List Nat) (w : Nat), w ∈ (relaxAll vis ws deg q).2 →
      w ∈ q ∨ (relaxAll vis ws deg q).1.get? w = some 0 := by
  intro ws
  induction ws with
  | nil =>
    intro deg q w h
    exact Or.inl h
  | cons w' t ih =>
    intro deg q w hw
    cases hd : deg.get? w' with
    | none =>
      simp only [relaxAll, hd] at hw ⊢
      exact ih deg q w hw
    | some d =>
      have hwlt : w' < deg.length := by
        rw [List.get?_eq_getElem?] at hd
        exact (List.getElem?_eq_some.1 hd).1
      simp only [relaxAll, hd] at hw ⊢
      by_cases hc : d - 1 = 0 ∧ w' ∉ vis
      · rw [if_pos hc] at hw ⊢
        rcases ih _ _ w hw with hq | hz
        · rcases List.mem_append.1 hq with h | h
          · exact Or.inl h
          · right
            have hww : w = w' := List.mem_singleton.1 h
            subst hww
            rw [relaxAll_deg]
            have hset : (deg.set w (d - 1)).get? w = some (d - 1) := by
              rw [List.get?_eq_getElem?]
              exact List.getElem?_set_self hwlt
            rw [hset, hc.1]
            simp
        · exact Or.inr hz
      · rw [if_neg hc] at hw ⊢
        exact ih _ _ w hw

/-- Helper: counting `v` after projecting the `idx`-sourced edges. -/
theorem count_map_snd_filter (idx v : Nat) :
    ∀ (l : List (Nat × Nat)),
      ((l.filter fun e => e.1 = idx).map (·.2)).count v =
      (l.filter fun e => e.1 = idx ∧ e.2 = v).length := by
  intro l
  induction l with
  | nil => rfl
  | cons e t ih =>
    by_cases h1 : e.1 = idx
    · by_cases h2 : e.2 = v
      · rw [List.filter_cons_of_pos (by simp [h1]), List.filter_cons_of_pos (by simp [h1, h2]),
          List.map_cons, h2, List.count_cons_self, ih, List.length_cons]
      · rw [List.filter_cons_of_pos (by simp [h1]), List.filter_cons_of_neg (by simp [h2]),
          List.map_cons, List.count_cons_of_ne (fun h => h2 h.symm), ih]
    · rw [List.filter_cons_of_neg (by simp [h1]), List.filter_cons_of_neg (by simp [h1])]
      exact ih

/-- Helper: the out-neighbor occurrences of `v` are the parallel
`idx → v` edges. -/
theorem count_outNeighbors (g : DepGraph) (idx v : Nat) :
    (outNeighbors g idx).count v = (g.edges.filter fun e => e.1 = idx ∧ e.2 = v).length := by
  unfold outNeighbors
  rw [List.count_reverse]
  exact count_map_snd_filter idx v g.edges

/-- Helper: visiting `idx` splits the unvisited in-degree of `v`. -/
theorem countU_insert (g : DepGraph) (vis : Finset Nat) (idx : Nat) (hidx : idx ∉ vis)
    (v : Nat) :
    countU g vis v = countU g (insert idx vis) v + (outNeighbors g idx).count v := by
  rw [count_outNeighbors]
  unfold countU
  induction g.edges with
  | nil => rfl
  | cons e t ih =>
    by_cases h2 : e.2 = v
    · by_cases h1 : e.1 = idx
      · rw [List.filter_cons_of_pos (by simp [h2, h1, hidx]),
          List.filter_cons_of_neg (by simp [h1, Finset.mem_insert]),
          List.filter_cons_of_pos (by simp [h1, h2]),
          List.length_cons, List.length_cons]
        omega
      · by_cases hv : e.1 ∈ vis
        · rw [List.filter_cons_of_neg (by simp [hv]),
            List.filter_cons_of_neg (by simp [Finset.mem_insert_of_mem hv]),
            List.filter_cons_of_neg (by simp [h1])]
          exact ih
        · rw [List.filter_cons_of_pos (by simp [h2, hv]),
            List.filter_cons_of_pos (by simp [h2, Finset.mem_insert, h1, hv]),
            List.filter_cons_of_neg (by simp [h1]),
            List.length_cons, List.length_cons]
          omega
    · rw [List.filter_cons_of_neg (by simp [h2]),
        List.filter_cons_of_neg (by simp [h2]),
        List.filter_cons_of_neg (by simp [h2])]
      exact ih

/-- Helper: unvisited in-degree only shrinks as the visited set grows. -/
theorem countU_mono (g : DepGraph) (vis vis' : Finset Nat) (h : vis ⊆ vis') (v : Nat) :
    countU g vis' v ≤ countU g vis v := by
  unfold countU
  apply List.Sublist.length_le
  apply List.monotone_filter_right
  intro e he
  simp only [decide_eq_true_eq] at he ⊢
  exact ⟨he.1, fun hm => he.2 (h hm)⟩

/-- Helper: the index of a fresh element appended at the end. -/
theorem indexOf_append_self {α : Type} [DecidableEq α] (l : List α) (b : α) (h : b ∉ l) :
    (l ++ [b]).indexOf b = l.length := by
  induction l with
  | nil => simp
  | cons a t ih =>
    have hba : b ≠ a := fun he => h (he ▸ List.mem_cons_self a t)
    rw [List.cons_append, List.indexOf_cons_ne _ hba.symm,
      ih fun hm => h (List.mem_cons_of_mem _ hm), List.length_cons]

/-- Helper: `indexOf` commutes with an injective-on-members map. -/
theorem indexOf_map_of_injOn {α β : Type} [DecidableEq α] [DecidableEq β]
    (f : α → β) :
    ∀ (l : List α), (∀ x ∈ l, ∀ y ∈ l, f x = f y → x = y) → ∀ a ∈ l,
      (l.map f).indexOf (f a) = l.indexOf a := by
  intro l
  induction l with
  | nil => intro _ a ha; simp at ha
  | cons b t ih =>
    intro hinj a ha
    by_cases hab : a = b
    · subst hab
      rw [List.map_cons, List.indexOf_cons_self, List.indexOf_cons_self]
    · have hfab : f a ≠ f b := fun he =>
        hab (hinj a ha b (List.mem_cons_self _ _) he)
      have hat : a ∈ t := by
        rcases List.mem_cons.1 ha with h | h
        · exact absurd h hab
        · exact h
      rw [List.map_cons, List.indexOf_cons_ne _ hfab.symm,
        List.indexOf_cons_ne _ (Ne.symm hab),
        ih (fun x hx y hy => hinj x (List.mem_cons_of_mem _ hx) y (List.mem_cons_of_mem _ hy))
          a hat]

/-- Helper: the Kahn loop preserves its invariant and drains the queue. -/
theorem kahnVisit_spec (g : DepGraph) :
    ∀ (deg queue : List Nat) (visited : Finset Nat) (result : List Nat),
      KInv g deg queue visited result →
      KFinal g (kahnVisit g deg queue visited result) := by
  intro deg queue visited result
  induction deg, queue, visited, result using kahnVisit.induct g with
  | case1 deg visited result =>
    intro hinv
    obtain ⟨j1, j2, j3, j4, j5, j6, j7, j8⟩ := hinv
    simp only [kahnVisit]
    refine ⟨j1, j2, j3, j8, ?_⟩
    intro v hv hnv hcz
    exact List.not_mem_nil v (j7 v hv hnv hcz)
  | case2 deg visited result idx rest h ih =>
    intro hinv
    obtain ⟨j1, j2, j3, j4, j5, j6, j7, j8⟩ := hinv
    simp only [kahnVisit]
    rw [if_pos h]
    refine ih ⟨j1, j2, j3, j4, j5, fun w hw => j6 w (List.mem_cons_of_mem _ hw), ?_, j8⟩
    intro v hv hnv hcz
    rcases List.mem_cons.1 (j7 v hv hnv hcz) with rfl | hm
    · rcases h with h | h
      · exact absurd h hnv
      · omega
    · exact hm
  | case3 deg visited result idx rest h visP stP ih =>
    intro hinv
    obtain ⟨j1, j2, j3, j4, j5, j6, j7, j8⟩ := hinv
    push_neg at h
    obtain ⟨hnv, hlt⟩ := h
    simp only [kahnVisit]
    rw [if_neg (by push_neg; exact ⟨hnv, hlt⟩)]
    have hcz : countU g visited idx = 0 := by
      rcases (j6 idx (List.mem_cons_self _ _)).2 with h' | h'
      · exact absurd h' hnv
      · exact h'
    have hlen' : (relaxAll (insert idx visited) (outNeighbors g idx) deg rest).1.length =
        g.nodes.length := by
      rw [relaxAll_fst_length, j4]
    have hdeg' : ∀ v, v < g.nodes.length →
        (relaxAll (insert idx visited) (outNeighbors g idx) deg rest).1.get? v =
          some (countU g (insert idx visited) v) := by
      intro v hv
      rw [relaxAll_deg, j5 v hv]
      simp only [Option.map_some', Option.some.injEq]
      have := countU_insert g visited idx hnv v
      omega
    apply ih
    refine ⟨?_, ?_, ?_, hlen', hdeg', ?_, ?_, ?_⟩
    · refine List.nodup_append.2 ⟨j1, List.nodup_singleton _, ?_⟩
      intro a ha hamem
      rw [List.mem_singleton] at hamem
      subst hamem
      exact hnv ((j2 a).1 ha)
    · intro x
      rw [List.mem_append, List.mem_singleton, Finset.mem_insert, j2]
      tauto
    · exact Finset.insert_subset_iff.2 ⟨Finset.mem_range.2 hlt, j3⟩
    · intro w hw
      rcases relaxAll_queue_zero (insert idx visited) (outNeighbors g idx) deg rest w hw
        with hr | hz
      · obtain ⟨hwlt, hdisj⟩ := j6 w (List.mem_cons_of_mem _ hr)
        refine ⟨hwlt, ?_⟩
        rcases hdisj with h' | h'
        · exact Or.inl (Finset.mem_insert_of_mem h')
        · refine Or.inr (Nat.le_zero.1 ?_)
          calc countU g (insert idx visited) w
              ≤ countU g visited w := countU_mono g _ _ (Finset.subset_insert _ _) w
            _ = 0 := h'
      · have hwlt : w < g.nodes.length := by
          rw [← hlen']
          rw [List.get?_eq_getElem?] at hz
          exact (List.getElem?_eq_some.1 hz).1
        refine ⟨hwlt, Or.inr ?_⟩
        have := hdeg' w hwlt
        rw [this] at hz
        exact Option.some.inj hz
    · intro v hv hnv' hcz'
      have hvnin : v ∉ visited := fun hm => hnv' (Finset.mem_insert_of_mem hm)
      have hvne : v ≠ idx := fun he => hnv' (he ▸ Finset.mem_insert_self idx visited)
      obtain ⟨pushed, hq, -⟩ :=
        relaxAll_queue_mono (insert idx visited) (outNeighbors g idx) deg rest
      by_cases hc0 : countU g visited v = 0
      · have hv_in := j7 v hv hvnin hc0
        rcases List.mem_cons.1 hv_in with h' | h'
        · exact absurd h' hvne
        · rw [hq]
          exact List.mem_append_left _ h'
      · refine relaxAll_push (insert idx visited) (outNeighbors g idx) deg rest v
          (countU g visited v) hnv' (j5 v hv) hc0 ?_
        have h1 := countU_insert g visited idx hnv v
        have h2 : countU g (insert idx visited) v = 0 := hcz'
        omega
    · intro u v he hv
      rcases List.mem_append.1 hv with hvr | hvi
      · obtain ⟨huR, hlt'⟩ := j8 u v he hvr
        refine ⟨List.mem_append_left _ huR, ?_⟩
        rw [List.indexOf_append_of_mem huR, List.indexOf_append_of_mem hvr]
        exact hlt'
      · rw [List.mem_singleton] at hvi
        subst hvi
        have hfil : (g.edges.filter fun e => e.2 = v ∧ e.1 ∉ visited) = [] :=
          List.length_eq_zero.1 hcz
        have hall := List.filter_eq_nil_iff.1 hfil (u, v) he
        simp only [decide_eq_true_eq, not_and, not_not] at hall
        have huvis : u ∈ visited := hall trivial
        have huR : u ∈ result := (j2 u).2 huvis
        refine ⟨List.mem_append_left _ huR, ?_⟩
        rw [List.indexOf_append_of_mem huR,
          indexOf_append_self result v (fun hm => hnv ((j2 v).1 hm))]
        exact List.indexOf_lt_length.2 huR

/-- Helper: the Kahn loop on an empty queue returns immediately. -/
theorem kahnVisit_nil (g : DepGraph) (deg : List Nat) (visited : Finset Nat)
    (result : List Nat) : kahnVisit g deg [] visited result = (result, visited) := by
  simp [kahnVisit]

/-- Helper: `kahn_with_cycle_handling` written with its loop call exposed. -/
theorem kahnWCH_eq (g : DepGraph) :
    kahnWithCycleHandling g =
      ((kahnVisit g ((List.range g.nodes.length).map fun v =>
          (g.edges.filter fun e => e.2 = v).length)
        ((List.range g.nodes.length).filter fun v =>
          (g.edges.filter fun e => e.2 = v).length = 0) ∅ []).1 ++
        (List.range g.nodes.length).filter fun v =>
          v ∉ (kahnVisit g ((List.range g.nodes.length).map fun v =>
            (g.edges.filter fun e => e.2 = v).length)
          ((List.range g.nodes.length).filter fun v =>
            (g.edges.filter fun e => e.2 = v).length = 0) ∅ []).2).map (pathAt g) :=
  rfl

/-- Helper: the initial state of `kahn_with_cycle_handling` satisfies the
loop invariant. -/
theorem kahnInit_inv (g : DepGraph) :
    KInv g ((List.range g.nodes.length).map fun v =>
        (g.edges.filter fun e => e.2 = v).length)
      ((List.range g.nodes.length).filter fun v =>
        (g.edges.filter fun e => e.2 = v).length = 0) ∅ [] := by
  have hcount : ∀ v, countU g ∅ v = (g.edges.filter fun e => e.2 = v).length := by
    intro v
    unfold countU
    congr 1
    apply List.filter_congr
    intro e _
    simp
  refine ⟨List.nodup_nil, by simp, by simp, by simp, ?_, ?_, ?_, by simp⟩
  · intro v hv
    rw [List.get?_eq_getElem?, List.getElem?_map, List.getElem?_range hv]
    simp [hcount]
  · intro w hw
    rw [List.mem_filter, List.mem_range] at hw
    refine ⟨hw.1, Or.inr ?_⟩
    rw [hcount]
    simpa using hw.2
  · intro v hv _ hcz
    rw [List.mem_filter, List.mem_range]
    refine ⟨hv, ?_⟩
    rw [hcount] at hcz
    simpa using hcz

/-- Helper: reading all indices back through `pathAt` recovers the node list. -/
theorem map_pathAt_range (g : DepGraph) :
    (List.range g.nodes.length).map (pathAt g) = g.nodes := by
  apply List.ext_getElem
  · simp
  · intro i h1 h2
    have hi : i < g.nodes.length := by simpa using h1
    simp only [List.getElem_map, List.getElem_range, pathAt]
    exact List.getD_eq_getElem g.nodes "" hi

/-- Helper: in a finite set where every member has a predecessor edge from
inside the set, every member is reachable from a cycle. -/
theorem pred_closed_cycle (g : DepGraph) (S : Finset Nat)
    (hS : ∀ w ∈ S, ∃ u ∈ S, hasEdge g u w) :
    ∀ v ∈ S, CycleReach g v := by
  intro v hv
  choose f hfS hfe using hS
  let step : {x // x ∈ S} → {x // x ∈ S} := fun x => ⟨f x.1 x.2, hfS x.1 x.2⟩
  let seq : Nat → {x // x ∈ S} := fun k => step^[k] ⟨v, hv⟩
  have hstep : ∀ k, seq (k + 1) = step (seq k) := by
    intro k
    simp only [seq, Function.iterate_succ_apply']
  have hedge : ∀ k, hasEdge g (seq (k + 1)).1 (seq k).1 := by
    intro k
    rw [hstep k]
    exact hfe (seq k).1 (seq k).2
  have hreach : ∀ i k, Reach g (seq (i + k)).1 (seq i).1 := by
    intro i k
    induction k with
    | zero => exact Relation.ReflTransGen.refl
    | succ k ih => exact Relation.ReflTransGen.head (hedge (i + k)) ih
  have main : ∀ i j : Nat, i < j → seq i = seq j → CycleReach g v := by
    intro i j hij he
    obtain ⟨k, rfl⟩ : ∃ k, j = i + k + 1 := ⟨j - i - 1, by omega⟩
    refine ⟨(seq (i + k + 1)).1, ⟨(seq (i + k)).1, hedge (i + k), ?_⟩, ?_⟩
    · rw [← he]
      exact hreach i k
    · have h0 := hreach 0 (i + k + 1)
      simpa [seq] using h0
  have hcard : Fintype.card {x // x ∈ S} < Fintype.card (Fin (S.card + 1)) := by
    simp [Fintype.card_coe]
  obtain ⟨a, b, hab, heq⟩ :=
    Fintype.exists_ne_map_eq_of_card_lt (fun a : Fin (S.card + 1) => seq a.1) hcard
  rcases lt_or_gt_of_ne hab with h | h
  · exact main a.1 b.1 h heq
  · exact main b.1 a.1 h heq.symm

/-- Helper: `topological_order_with_cycles` always reduces to
`kahn_with_cycle_handling` (either `toposort` succeeds and its order is the
Kahn order on the acyclic graph, or it fails and the fallback runs). -/
theorem topoWithCycles_eq_kahn (g : DepGraph) :
    topologicalOrderWithCycles g = kahnWithCycleHandling g := by
  unfold topologicalOrderWithCycles topologicalOrder
  by_cases h : hasCycleB g <;> simp [h]

/-- C2: `topological_order_with_cycles` lists every node exactly once; the
edge-order guarantee, however, holds in the amended form: for an edge `u → v`
whose target `v` is not reachable from any cycle, `u` precedes `v` in the
output (the original claim's weaker side condition — neither endpoint lies on
a cycle — is refuted by `C2_edge_order_counterexample`). -/
theorem C2_topo_with_cycles (g : DepGraph)
    (hWF : ∀ e ∈ g.edges, e.1 < g.nodes.length ∧ e.2 < g.nodes.length)
    (hnd : g.nodes.Nodup) :
    (topologicalOrderWithCycles g).Perm g.nodes ∧
    ∀ u v, (u, v) ∈ g.edges → ¬ CycleReach g v →
      (topologicalOrderWithCycles g).indexOf (pathAt g u) <
        (topologicalOrderWithCycles g).indexOf (pathAt g v) := by
  have hfin := kahnVisit_spec g _ _ _ _ (kahnInit_inv g)
  rw [topoWithCycles_eq_kahn g, kahnWCH_eq g]
  set st := kahnVisit g ((List.range g.nodes.length).map fun v =>
      (g.edges.filter fun e => e.2 = v).length)
    ((List.range g.nodes.length).filter fun v =>
      (g.edges.filter fun e => e.2 = v).length = 0) ∅ [] with hst
  obtain ⟨f1, f2, f3, f4, f5⟩ := hfin
  set L : List Nat :=
    st.1 ++ (List.range g.nodes.length).filter fun v => v ∉ st.2 with hL
  have hLmem : ∀ x, x ∈ L ↔ x < g.nodes.length := by
    intro x
    rw [hL, List.mem_append, List.mem_filter, List.mem_range]
    constructor
    · rintro (hx | ⟨hx, _⟩)
      · exact Finset.mem_range.1 (f3 ((f2 x).1 hx))
      · exact hx
    · intro hx
      by_cases hv : x ∈ st.2
      · exact Or.inl ((f2 x).2 hv)
      · exact Or.inr ⟨hx, by simpa using hv⟩
  have hLnodup : L.Nodup := by
    rw [hL]
    refine List.nodup_append.2 ⟨f1, List.Nodup.filter _ (List.nodup_range _), ?_⟩
    intro a ha hafil
    rw [List.mem_filter] at hafil
    exact (by simpa using hafil.2 : a ∉ st.2) ((f2 a).1 ha)
  have hperm : L.Perm (List.range g.nodes.length) := by
    rw [List.perm_ext_iff_of_nodup hLnodup (List.nodup_range _)]
    intro x
    rw [hLmem, List.mem_range]
  have hinj : ∀ x ∈ L, ∀ y ∈ L, pathAt g x = pathAt g y → x = y := by
    intro x hx y hy hpe
    have hxn := (hLmem x).1 hx
    have hyn := (hLmem y).1 hy
    simp only [pathAt] at hpe
    rw [List.getD_eq_getElem _ _ hxn, List.getD_eq_getElem _ _ hyn] at hpe
    have hget : g.nodes.get ⟨x, hxn⟩ = g.nodes.get ⟨y, hyn⟩ := by
      simpa [List.get_eq_getElem] using hpe
    have := (List.Nodup.get_inj_iff hnd).1 hget
    simpa using this
  constructor
  · rw [← map_pathAt_range g]
    exact hperm.map _
  · intro u v he hnc
    have hun : u < g.nodes.length := (hWF _ he).1
    have hvn : v < g.nodes.length := (hWF _ he).2
    have hvst : v ∈ st.2 := by
      by_contra hns
      set S : Finset Nat :=
        (Finset.range g.nodes.length).filter (fun w => w ∉ st.2) with hSdef
      have hSpred : ∀ w ∈ S, ∃ u' ∈ S, hasEdge g u' w := by
        intro w hw
        rw [hSdef, Finset.mem_filter, Finset.mem_range] at hw
        have hcz := f5 w hw.1 hw.2
        have hpos : 0 < (g.edges.filter fun e => e.2 = w ∧ e.1 ∉ st.2).length :=
          Nat.pos_of_ne_zero hcz
        obtain ⟨e, hemem⟩ :=
          List.exists_mem_of_ne_nil (g.edges.filter fun e => e.2 = w ∧ e.1 ∉ st.2) (by
            intro hnilc
            rw [hnilc] at hpos
            simp at hpos)
        obtain ⟨he', hpred⟩ := List.mem_filter.1 hemem
        simp only [decide_eq_true_eq] at hpred
        refine ⟨e.1, ?_, ?_⟩
        · rw [hSdef, Finset.mem_filter, Finset.mem_range]
          exact ⟨(hWF e he').1, hpred.2⟩
        · show (e.1, w) ∈ g.edges
          rw [← hpred.1]
          simpa using he'
      have hvS : v ∈ S := by
        rw [hSdef, Finset.mem_filter, Finset.mem_range]
        exact ⟨hvn, hns⟩
      exact hnc (pred_closed_cycle g S hSpred v hvS)
    have hvres : v ∈ st.1 := (f2 v).2 hvst
    obtain ⟨hures, hidx⟩ := f4 u v he hvres
    have huL : u ∈ L := by rw [hL]; exact List.mem_append_left _ hures
    have hvL : v ∈ L := by rw [hL]; exact List.mem_append_left _ hvres
    rw [indexOf_map_of_injOn (pathAt g) L hinj u huL,
      indexOf_map_of_injOn (pathAt g) L hinj v hvL, hL,
      List.indexOf_append_of_mem hures, List.indexOf_append_of_mem hvres]
    exact hidx

/-- C2 counterexample: in `gC2` the edge `a → b` (indices `1 → 0`) has
neither endpoint on a cycle, yet the output lists `b` before `a`: every node
of `gC2` has positive in-degree, so the Kahn queue starts empty and all nodes
are appended in node order, ignoring the acyclic edge. -/
theorem C2_edge_order_counterexample :
    (1, 0) ∈ gC2.edges ∧ ¬ InCycle gC2 1 ∧ ¬ InCycle gC2 0 ∧
    pathAt gC2 1 = "a" ∧ pathAt gC2 0 = "b" ∧
    topologicalOrderWithCycles gC2 = ["b", "a", "c1", "c2"] ∧
    List.indexOf "b" (topologicalOrderWithCycles gC2) <
      List.indexOf "a" (topologicalOrderWithCycles gC2) := by
  have hnil : kahnVisit gC2 ((List.range gC2.nodes.length).map fun v =>
      (gC2.edges.filter fun e => e.2 = v).length)
      ((List.range gC2.nodes.length).filter fun v =>
        (gC2.edges.filter fun e => e.2 = v).length = 0) ∅ [] = ([], ∅) := by
    rw [show ((List.range gC2.nodes.length).filter fun v =>
        (gC2.edges.filter fun e => e.2 = v).length = 0) = ([] : List Nat) from rfl]
    exact kahnVisit_nil gC2 _ _ _
  have hK : kahnWithCycleHandling gC2 = ["b", "a", "c1", "c2"] := by
    rw [kahnWCH_eq gC2, hnil]
    rfl
  rw [topoWithCycles_eq_kahn gC2, hK]
  refine ⟨by decide, by decide, by decide, rfl, rfl, rfl, by decide⟩

/-- C2 witness: the amended order guarantee and the permutation property on
the two-node acyclic graph `gW2`. -/
theorem C2_topo_with_cycles_witness :
    (topologicalOrderWithCycles gW2).Perm gW2.nodes ∧
    ∀ u v, (u, v) ∈ gW2.edges → ¬ CycleReach gW2 v →
      (topologicalOrderWithCycles gW2).indexOf (pathAt gW2 u) <
        (topologicalOrderWithCycles gW2).indexOf (pathAt gW2 v) :=
  C2_topo_with_cycles gW2 (by decide) (by decide)

/-- Helper: soundness of the simple-path enumerator. -/
theorem simplePathsAux_sound (g : DepGraph) (tgt : Nat) :
    ∀ fuel acc u, u ∉ acc → ∀ p ∈ simplePathsAux g tgt fuel acc u,
      ∃ q, p = acc ++ q ∧ q.head? = some u ∧ q.getLast? = some tgt ∧
        q.length ≤ fuel ∧ List.Chain' (hasEdge g) q ∧ q.Nodup ∧
        ∀ x ∈ q, x ∉ acc := by
  intro fuel
  induction fuel with
  | zero =>
    intro acc u _ p hp
    simp [simplePathsAux] at hp
  | succ fuel ih =>
    intro acc u hu p hp
    rw [simplePathsAux] at hp
    by_cases ht : u = tgt
    · rw [if_pos ht, List.mem_singleton] at hp
      subst hp
      exact ⟨[u], rfl, rfl, by simp [ht], by simp, List.chain'_singleton u,
        List.nodup_singleton u, by simpa using hu⟩
    · rw [if_neg ht, List.mem_flatMap] at hp
      obtain ⟨v, hv, hpv⟩ := hp
      by_cases hvin : v ∈ acc ++ [u]
      · rw [if_pos hvin] at hpv
        simp at hpv
      · rw [if_neg hvin] at hpv
        obtain ⟨q', hpq, hhd, hlast, hlen, hchain, hnd, hdisj⟩ :=
          ih (acc ++ [u]) v hvin p hpv
        have hq'ne : q' ≠ [] := by
          intro h
          rw [h] at hhd
          simp at hhd
        refine ⟨u :: q', by rw [hpq, List.append_assoc]; rfl, rfl, ?_, ?_, ?_, ?_, ?_⟩
        · obtain ⟨b, t, rfl⟩ := List.exists_cons_of_ne_nil hq'ne
          rw [List.getLast?_cons_cons]
          exact hlast
        · simpa using Nat.succ_le_succ hlen
        · refine List.chain'_cons'.2 ⟨?_, hchain⟩
          intro y hy
          rw [hhd, Option.mem_some_iff] at hy
          subst hy
          exact (mem_outNeighbors g u v).1 hv
        · refine List.nodup_cons.2 ⟨?_, hnd⟩
          intro hm
          exact hdisj u hm (List.mem_append_right _ (List.mem_singleton_self u))
        · intro x hx
          rcases List.mem_cons.1 hx with rfl | hx'
          · exact hu
          · intro hacc
            exact hdisj x hx' (List.mem_append_left _ hacc)

/-- Helper: the per-path step preserves the chain detector's invariant. -/
theorem deepChainPathStep_inv (g : DepGraph) (maxD s t : Nat) :
    ∀ (paths : List (List Nat)), (∀ p ∈ paths, p ∈ allSimplePaths g s t (maxD + 2)) →
    ∀ st, DeepChainStInv g maxD st →
      DeepChainStInv g maxD (paths.foldl (deepChainPathStep g maxD) st) := by
  intro paths
  induction paths with
  | nil =>
    intro _ st h
    exact h
  | cons p ps ihp =>
    intro hsub st hinv
    rw [List.foldl_cons]
    refine ihp (fun q hq => hsub q (List.mem_cons_of_mem _ hq)) _ ?_
    obtain ⟨h1, h2, h3⟩ := hinv
    unfold deepChainPathStep
    by_cases hlong : maxD < p.length
    · rw [if_pos hlong]
      by_cases hkey : p.map (pathAt g) ∈ st.1
      · simpa [hkey] using ⟨h1, h2, h3⟩
      · simp only [hkey, if_false]
        have hok : DeepChainOK g maxD (Issue.mkDeepDependencyChain (p.map (pathAt g)) maxD) := by
          obtain ⟨q, hq, hhd, hlast, hlen, hchain, hnd, -⟩ :=
            simplePathsAux_sound g t (maxD + 2 + 2) [] s (List.not_mem_nil s) p
              (hsub p (List.mem_cons_self _ _))
          rw [List.nil_append] at hq
          subst hq
          exact ⟨p, hchain, hnd, hlong, by omega, rfl⟩
        have hlocs : ∀ (key : List String),
            (Issue.mkDeepDependencyChain key maxD).locations.map Location.path = key := by
          intro key
          simp [Issue.mkDeepDependencyChain, Function.comp_def]
        refine ⟨?_, ?_, ?_⟩
        · intro i hi
          rcases List.mem_append.1 hi with hi' | hi'
          · exact h1 i hi'
          · rw [List.mem_singleton] at hi'
            subst hi'
            exact hok
        · refine List.pairwise_append.2 ⟨h2, List.pairwise_singleton _ _, ?_⟩
          intro a ha b hb
          rw [List.mem_singleton] at hb
          subst hb
          intro habs
          apply hkey
          rw [← hlocs (p.map (pathAt g)), ← habs]
          exact h3 a ha
        · intro i hi
          rcases List.mem_append.1 hi with hi' | hi'
          · exact List.mem_cons_of_mem _ (h3 i hi')
          · rw [List.mem_singleton] at hi'
            subst hi'
            rw [hlocs]
            exact List.mem_cons_self _ _
    · rw [if_neg hlong]
      exact ⟨h1, h2, h3⟩

/-- Helper: the per-pair step preserves the chain detector's invariant. -/
theorem deepChains_foldl_inv (g : DepGraph) (maxD : Nat) :
    ∀ (pairs : List (Nat × Nat)) st, DeepChainStInv g maxD st →
      DeepChainStInv g maxD (pairs.foldl (deepChainStep g maxD) st) := by
  intro pairs
  induction pairs with
  | nil =>
    intro st h
    exact h
  | cons pr ps ihp =>
    intro st hinv
    rw [List.foldl_cons]
    refine ihp _ ?_
    unfold deepChainStep
    by_cases hpr : pr.1 = pr.2
    · rwa [if_pos hpr]
    · rw [if_neg hpr]
      exact deepChainPathStep_inv g maxD pr.1 pr.2 _ (fun _ hp => hp) st hinv

/-- Helper: stable descending insertion yields a permutation. -/
theorem insertByLenDesc_perm (i : Issue) :
    ∀ l : List Issue, (insertByLenDesc i l).Perm (i :: l) := by
  intro l
  induction l with
  | nil => rfl
  | cons j t ih =>
    rw [insertByLenDesc]
    by_cases h : j.locations.length ≤ i.locations.length
    · rw [if_pos h]
    · rw [if_neg h]
      exact (ih.cons j).trans (List.Perm.swap i j t)

/-- Helper: the stable sort is a permutation of its input. -/
theorem sortByLenDesc_perm : ∀ l : List Issue, (sortByLenDesc l).Perm l := by
  intro l
  induction l with
  | nil => rfl
  | cons i t ih =>
    rw [sortByLenDesc]
    exact (insertByLenDesc_perm i (sortByLenDesc t)).trans (ih.cons i)

/-- Helper: inserting into a descending list keeps it descending. -/
theorem insertByLenDesc_sorted (i : Issue) :
    ∀ l : List Issue,
      l.Pairwise (fun a b => b.locations.length ≤ a.locations.length) →
      (insertByLenDesc i l).Pairwise
        (fun a b => b.locations.length ≤ a.locations.length) := by
  intro l
  induction l with
  | nil =>
    intro _
    exact List.pairwise_singleton _ _
  | cons j t ih =>
    intro h
    obtain ⟨hj, ht⟩ := List.pairwise_cons.1 h
    rw [insertByLenDesc]
    by_cases hle : j.locations.length ≤ i.locations.length
    · rw [if_pos hle]
      refine List.pairwise_cons.2 ⟨?_, h⟩
      intro b hb
      rcases List.mem_cons.1 hb with rfl | hb'
      · exact hle
      · exact le_trans (hj b hb') hle
    · rw [if_neg hle]
      refine List.pairwise_cons.2 ⟨?_, ih ht⟩
      intro b hb
      have hb' := (insertByLenDesc_perm i t).mem_iff.1 hb
      rcases List.mem_cons.1 hb' with rfl | hb''
      · omega
      · exact hj b hb''

/-- Helper: the stable sort output is descending by location count. -/
theorem sortByLenDesc_sorted :
    ∀ l : List Issue,
      (sortByLenDesc l).Pairwise
        (fun a b => b.locations.length ≤ a.locations.length) := by
  intro l
  induction l with
  | nil => exact List.Pairwise.nil
  | cons i t ih =>
    rw [sortByLenDesc]
    exact insertByLenDesc_sorted i (sortByLenDesc t) ih

/-- C7: for any pair iteration order, every issue the deep-chain detector
returns reports a simple directed path of more than `max_depth` but at most
`max_depth + 4` nodes (amended bound: petgraph's `max_intermediate_nodes =
max_depth + 2` excludes the two endpoints, so the original `max_depth + 2`
node bound is refuted by `C7_depth_bound_counterexample`); distinct issues
have distinct location sequences; the list is sorted by location count
descending and has at most 10 entries. -/
theorem C7_deep_chain_issues (g : DepGraph) (cfg : Config) (pairs : List (Nat × Nat)) :
    (∀ i ∈ deepChainsCore g cfg pairs,
      DeepChainOK g cfg.thresholds.maxDependencyDepth i) ∧
    (deepChainsCore g cfg pairs).Pairwise (fun a b => a.locations ≠ b.locations) ∧
    (deepChainsCore g cfg pairs).Pairwise
      (fun a b => b.locations.length ≤ a.locations.length) ∧
    (deepChainsCore g cfg pairs).length ≤ 10 := by
  obtain ⟨h1, h2, -⟩ :=
    deepChains_foldl_inv g cfg.thresholds.maxDependencyDepth pairs ([], [])
      ⟨fun i hi => absurd hi (List.not_mem_nil i), List.Pairwise.nil,
        fun i hi => absurd hi (List.not_mem_nil i)⟩
  set issues := (pairs.foldl
    (deepChainStep g cfg.thresholds.maxDependencyDepth) ([], [])).2 with hiss
  have hperm := sortByLenDesc_perm issues
  have htake : deepChainsCore g cfg pairs = (sortByLenDesc issues).take 10 := rfl
  refine ⟨?_, ?_, ?_, ?_⟩
  · intro i hi
    rw [htake] at hi
    exact h1 i (hperm.mem_iff.1 ((List.take_sublist _ _).subset hi))
  · rw [htake]
    refine List.Pairwise.sublist (List.take_sublist _ _) ?_
    exact (hperm.pairwise_iff fun hab habs => hab habs.symm).2 h2
  · rw [htake]
    exact List.Pairwise.sublist (List.take_sublist _ _) (sortByLenDesc_sorted issues)
  · rw [htake, List.length_take]
    exact min_le_left _ _

/-- C7 counterexample: with `max_depth = 1` the five-node chain `gC7` yields
an issue whose path has 5 nodes, exceeding the claimed `max_depth + 2 = 3`
bound (the real bound is `max_depth + 4`). -/
theorem C7_depth_bound_counterexample :
    cfgC7.thresholds.maxDependencyDepth = 1 ∧
    ∃ i ∈ detectDeepDependencyChains gC7 cfgC7,
      i.locations.length = 5 ∧
      cfgC7.thresholds.maxDependencyDepth + 2 < i.locations.length := by
  decide

/-- Helper: one `RevWalk` inversion — a zero-length walk stays put. -/
theorem revWalk_zero_eq (g : DepGraph) {u v : Nat} (h : RevWalk g 0 u v) : u = v := by
  cases h
  rfl

/-- Helper: `impactVisit`'s fold appends one entry per newly visited
dependent, in dependent order. -/
theorem impactVisit_spec (g : DepGraph) (depth : Nat) :
    ∀ (deps : List Nat) (st : BfsState),
      ∃ new : List Nat, new.Nodup ∧ (∀ x ∈ new, x ∈ deps ∧ x ∉ st.visited) ∧
        (deps.foldl (fun st dep =>
          if dep ∈ st.visited then st
          else ⟨insert dep st.visited, st.dm ++ [(dep, depth + 1)],
                st.queue ++ [(dep, depth + 1)]⟩) st).visited =
          st.visited ∪ new.toFinset ∧
        (deps.foldl (fun st dep =>
          if dep ∈ st.visited then st
          else ⟨insert dep st.visited, st.dm ++ [(dep, depth + 1)],
                st.queue ++ [(dep, depth + 1)]⟩) st).dm =
          st.dm ++ new.map (fun x => (x, depth + 1)) ∧
        (deps.foldl (fun st dep =>
          if dep ∈ st.visited then st
          else ⟨insert dep st.visited, st.dm ++ [(dep, depth + 1)],
                st.queue ++ [(dep, depth + 1)]⟩) st).queue =
          st.queue ++ new.map (fun x => (x, depth + 1)) ∧
        (∀ x ∈ deps, x ∈ st.visited ∪ new.toFinset) := by
  intro deps
  induction deps with
  | nil =>
    intro st
    exact ⟨[], List.nodup_nil, by simp, by simp, by simp, by simp, by simp⟩
  | cons dep deps ih =>
    intro st
    rw [List.foldl_cons]
    by_cases hv : dep ∈ st.visited
    · rw [if_pos hv]
      obtain ⟨new, hnd, hmem, hvis, hdm, hq, hall⟩ := ih st
      refine ⟨new, hnd, ?_, hvis, hdm, hq, ?_⟩
      · intro x hx
        exact ⟨List.mem_cons_of_mem _ (hmem x hx).1, (hmem x hx).2⟩
      · intro x hx
        rcases List.mem_cons.1 hx with rfl | hx'
        · exact Finset.mem_union_left _ hv
        · exact hall x hx'
    · rw [if_neg hv]
      obtain ⟨new, hnd, hmem, hvis, hdm, hq, hall⟩ :=
        ih ⟨insert dep st.visited, st.dm ++ [(dep, depth + 1)],
            st.queue ++ [(dep, depth + 1)]⟩
      have hdepnew : dep ∉ new := fun hx =>
        (hmem dep hx).2 (Finset.mem_insert_self dep st.visited)
    -- the combined visited set
      have hsets : insert dep st.visited ∪ new.toFinset =
          st.visited ∪ (dep :: new).toFinset := by
        ext a
        simp only [Finset.mem_union, Finset.mem_insert, List.toFinset_cons, List.mem_toFinset]
        tauto
      refine ⟨dep :: new, List.nodup_cons.2 ⟨hdepnew, hnd⟩, ?_, ?_, ?_, ?_, ?_⟩
      · intro x hx
        rcases List.mem_cons.1 hx with rfl | hx'
        · exact ⟨List.mem_cons_self _ _, hv⟩
        · refine ⟨List.mem_cons_of_mem _ (hmem x hx').1, fun hxs => ?_⟩
          exact (hmem x hx').2 (Finset.mem_insert_of_mem hxs)
      · rw [hvis]
        exact hsets
      · rw [hdm]
        simp [List.append_assoc]
      · rw [hq]
        simp [List.append_assoc]
      · intro x hx
        rcases List.mem_cons.1 hx with rfl | hx'
        · simp
        · rw [← hsets]
          exact hall x hx'

/-- Helper: a positive-length walk decomposes into a shorter walk and a
final step. -/
theorem revWalk_succ_inv (g : DepGraph) {n u w : Nat} (h : RevWalk g (n + 1) u w) :
    ∃ v, RevWalk g n u v ∧ (w, v) ∈ g.edges := by
  cases h with
  | succ hw he => exact ⟨_, hw, he⟩

/-- Helper: a constant list is trivially nondecreasing. -/
theorem pairwise_le_map_const {α : Type} (c : Nat) :
    ∀ l : List α, (l.map fun _ => c).Pairwise (· ≤ ·) := by
  intro l
  induction l with
  | nil => exact List.Pairwise.nil
  | cons a t ih =>
    rw [List.map_cons]
    refine List.pairwise_cons.2 ⟨?_, ih⟩
    intro b hb
    obtain ⟨x, -, rfl⟩ := List.mem_map.1 hb
    exact le_refl _

/-- Helper: every node at positive reverse distance at most the front depth
is already visited. -/
theorem impact_walk_visited (g : DepGraph) (t node depth : Nat) (vis : Finset Nat)
    (dm rest : List (Nat × Nat))
    (hinv : ImpactInv g t ⟨vis, dm, (node, depth) :: rest⟩) :
    ∀ j v, RevWalk g j t v → 0 < j → j ≤ depth → v ∈ vis := by
  obtain ⟨i1, i2, i3, i4, i5, i6, i7, i8, i9⟩ := hinv
  intro j
  induction j with
  | zero =>
    intro v _ h _
    omega
  | succ n ih =>
    intro w hw _ hle
    obtain ⟨m, hw', he⟩ := revWalk_succ_inv g hw
    have hwin : w ∈ inNeighbors g m := (mem_inNeighbors g m w).2 he
    by_cases hn : n = 0
    · subst hn
      have hm := revWalk_zero_eq g hw'
      rw [← hm] at hwin
      exact i9 w hwin
    · have hm : m ∈ vis := ih m hw' (by omega) (by omega)
      have hmq : ∀ d, (m, d) ∉ (node, depth) :: rest := by
        intro d hd
        have hdmem : (m, d) ∈ dm := i5 _ hd
        have hdle : d ≤ n := (i4 m d hdmem).2.2 n (by omega) hw'
        rcases List.mem_cons.1 hd with heq | hdr
        · have : d = depth := congrArg Prod.snd heq
          omega
        · have hfront : depth ≤ d := by
            have hp := i6
            simp only [List.map_cons] at hp
            exact (List.pairwise_cons.1 hp).1 d (List.mem_map_of_mem Prod.snd hdr)
          omega
      exact i8 m hm hmq w hwin

/-- Helper: expanding the popped node preserves the BFS invariant. -/
theorem impactStep_inv (g : DepGraph) (t node depth : Nat) (vis : Finset Nat)
    (dm rest : List (Nat × Nat))
    (hinv : ImpactInv g t ⟨vis, dm, (node, depth) :: rest⟩) :
    ImpactInv g t (impactVisit g node depth ⟨vis, dm, rest⟩) := by
  obtain ⟨new, hnd, hmem, hvis, hdm, hq, hall⟩ :=
    impactVisit_spec g depth (inNeighbors g node) ⟨vis, dm, rest⟩
  obtain ⟨i1, i2, i3, i4, i5, i6, i7, i8, i9⟩ := hinv
  have hnode : (node, depth) ∈ dm := i5 _ (List.mem_cons_self _ _)
  obtain ⟨hdep1, hwnode, -⟩ := i4 node depth hnode
  have hrestq : ∀ d ∈ rest.map Prod.snd, depth ≤ d ∧ d ≤ depth + 1 := by
    intro d hd
    constructor
    · have hp := i6
      simp only [List.map_cons] at hp
      exact (List.pairwise_cons.1 hp).1 d hd
    · exact i7 d (by simp [hd]) depth (by simp)
  have hnewmin : ∀ x ∈ new, ∀ j, 0 < j → RevWalk g j t x → depth + 1 ≤ j := by
    intro x hx j hj hw
    by_contra hlt
    exact (hmem x hx).2
      (impact_walk_visited g t node depth vis dm rest
        ⟨i1, i2, i3, i4, i5, i6, i7, i8, i9⟩ j x hw hj (by omega))
  rw [ImpactInv, impactVisit, hvis, hdm, hq]
  refine ⟨?_, ?_, ?_, ?_, ?_, ?_, ?_, ?_, ?_⟩
  · intro v d hvd
    rcases List.mem_append.1 hvd with h | h
    · exact Finset.mem_union_left _ (i1 v d h)
    · obtain ⟨x, hx, hxe⟩ := List.mem_map.1 h
      have hx1 : x = v := congrArg Prod.fst hxe
      subst hx1
      exact Finset.mem_union_right _ (List.mem_toFinset.2 hx)
  · intro v hvv
    rcases Finset.mem_union.1 hvv with h | h
    · obtain ⟨d, hd⟩ := i2 v h
      exact ⟨d, List.mem_append_left _ hd⟩
    · exact ⟨depth + 1,
        List.mem_append_right _ (List.mem_map_of_mem _ (List.mem_toFinset.1 h))⟩
  · rw [List.map_append]
    have hfst : (new.map fun x => (x, depth + 1)).map Prod.fst = new := by
      rw [List.map_map]
      exact List.map_id new
    rw [hfst]
    refine List.nodup_append.2 ⟨i3, hnd, ?_⟩
    intro a ha hanew
    obtain ⟨⟨a1, d1⟩, hd1, rfl⟩ := List.mem_map.1 ha
    exact (hmem _ hanew).2 (i1 _ _ hd1)
  · intro v d hvd
    rcases List.mem_append.1 hvd with h | h
    · exact i4 v d h
    · obtain ⟨x, hx, hxe⟩ := List.mem_map.1 h
      have hx1 : x = v := congrArg Prod.fst hxe
      have hx2 : depth + 1 = d := congrArg Prod.snd hxe
      subst hx1
      subst hx2
      refine ⟨by omega, ?_, ?_⟩
      · exact RevWalk.succ hwnode ((mem_inNeighbors g node x).1 (hmem x hx).1)
      · intro j hj hw
        exact hnewmin x hx j hj hw
  · intro e he
    rcases List.mem_append.1 he with h | h
    · exact List.mem_append_left _ (i5 _ (List.mem_cons_of_mem _ h))
    · exact List.mem_append_right _ h
  · rw [List.map_append]
    refine List.pairwise_append.2 ⟨?_, ?_, ?_⟩
    · have hp := i6
      simp only [List.map_cons] at hp
      exact (List.pairwise_cons.1 hp).2
    · rw [List.map_map]
      rw [show (Prod.snd ∘ fun x : Nat => (x, depth + 1)) = fun _ => depth + 1 from rfl]
      exact pairwise_le_map_const (depth + 1) new
    · intro a ha b hb
      obtain ⟨x, -, rfl⟩ := List.mem_map.1 (List.map_map .. ▸ hb)
      exact (hrestq a ha).2
  · intro a ha b hb
    rw [List.map_append] at ha hb
    have hsnd : ∀ c ∈ (new.map fun x => (x, depth + 1)).map Prod.snd, c = depth + 1 := by
      intro c hc
      rw [List.map_map] at hc
      obtain ⟨x, -, rfl⟩ := List.mem_map.1 hc
      rfl
    rcases List.mem_append.1 ha with ha' | ha' <;> rcases List.mem_append.1 hb with hb' | hb'
    · exact i7 a (by simp [ha']) b (by simp [hb'])
    · rw [hsnd b hb']
      have := (hrestq a ha').2
      omega
    · rw [hsnd a ha']
      have := (hrestq b hb').1
      omega
    · rw [hsnd a ha', hsnd b hb']
      omega
  · intro v hvv hvq w hwin
    rcases Finset.mem_union.1 hvv with h | h
    · by_cases hvn : v = node
      · subst hvn
        exact hall w hwin
      · have hvpre : ∀ d, (v, d) ∉ (node, depth) :: rest := by
          intro d hd
          rcases List.mem_cons.1 hd with heq | hdr
          · exact hvn (congrArg Prod.fst heq)
          · exact hvq d (List.mem_append_left _ hdr)
        exact Finset.mem_union_left _ (i8 v h hvpre w hwin)
    · exact absurd (List.mem_append_right rest
        (List.mem_map_of_mem (fun x => (x, depth + 1)) (List.mem_toFinset.1 h)))
        (hvq (depth + 1))
  · intro w hwin
    exact Finset.mem_union_left _ (i9 w hwin)

/-- Helper: the seeded initial state satisfies the BFS invariant. -/
theorem impactInit_inv (g : DepGraph) (t : Nat) :
    ImpactInv g t (impactVisit g t 0 ⟨∅, [], []⟩) := by
  obtain ⟨new, hnd, hmem, hvis, hdm, hq, hall⟩ :=
    impactVisit_spec g 0 (inNeighbors g t) ⟨∅, [], []⟩
  rw [ImpactInv, impactVisit, hvis, hdm, hq]
  simp only [List.nil_append, Finset.empty_union]
  refine ⟨?_, ?_, ?_, ?_, fun e he => he, ?_, ?_, ?_, ?_⟩
  · intro v d hvd
    obtain ⟨x, hx, hxe⟩ := List.mem_map.1 hvd
    have hx1 : x = v := congrArg Prod.fst hxe
    subst hx1
    exact List.mem_toFinset.2 hx
  · intro v hvv
    exact ⟨1, List.mem_map_of_mem _ (List.mem_toFinset.1 hvv)⟩
  · rw [List.map_map]
    rw [show (Prod.fst ∘ fun x : Nat => (x, 0 + 1)) = id from rfl]
    simpa using hnd
  · intro v d hvd
    obtain ⟨x, hx, hxe⟩ := List.mem_map.1 hvd
    have hx1 : x = v := congrArg Prod.fst hxe
    have hx2 : 0 + 1 = d := congrArg Prod.snd hxe
    subst hx1
    subst hx2
    refine ⟨le_refl _, ?_, ?_⟩
    · exact RevWalk.succ (RevWalk.zero t) ((mem_inNeighbors g t x).1 (hmem x hx).1)
    · intro j hj _
      omega
  · rw [List.map_map]
    rw [show (Prod.snd ∘ fun x : Nat => (x, 0 + 1)) = fun _ => 1 from rfl]
    exact pairwise_le_map_const 1 new
  · intro a ha b hb
    rw [List.map_map] at ha hb
    obtain ⟨x, -, rfl⟩ := List.mem_map.1 ha
    have hone : ((Prod.snd ∘ fun x : Nat => (x, 0 + 1)) x) = 1 := rfl
    omega
  · intro v hvv hvq w hwin
    exact absurd (List.mem_map_of_mem (fun x => (x, 0 + 1)) (List.mem_toFinset.1 hvv))
      (hvq (0 + 1))
  · intro w hwin
    exact List.mem_toFinset.2 (List.mem_toFinset.1 (hall w hwin))

/-- Helper: every depth-map entry the BFS loop returns is sound and minimal. -/
theorem impactLoop_spec (g : DepGraph) (t : Nat) :
    ∀ fuel st, ImpactInv g t st →
      ∀ v d, (v, d) ∈ impactLoop g fuel st →
        1 ≤ d ∧ RevWalk g d t v ∧ ∀ j, 0 < j → RevWalk g j t v → d ≤ j := by
  intro fuel
  induction fuel with
  | zero =>
    intro st hinv v d hvd
    exact hinv.2.2.2.1 v d hvd
  | succ fuel ih =>
    rintro ⟨vis, dm, q⟩ hinv v d hvd
    match q with
    | [] =>
      exact hinv.2.2.2.1 v d hvd
    | (node, depth) :: rest =>
      rw [impactLoop] at hvd
      exact ih _ (impactStep_inv g t node depth vis dm rest hinv) v d hvd

/-- Helper: ascending string insertion yields a permutation. -/
theorem insertStrAsc_perm (x : String) :
    ∀ l : List String, (insertStrAsc x l).Perm (x :: l) := by
  intro l
  induction l with
  | nil => rfl
  | cons y t ih =>
    rw [insertStrAsc]
    by_cases h : x ≤ y
    · rw [if_pos h]
    · rw [if_neg h]
      exact (ih.cons y).trans (List.Perm.swap x y t)

/-- Helper: the level sort is a permutation of its input. -/
theorem sortStrAsc_perm : ∀ l : List String, (sortStrAsc l).Perm l := by
  intro l
  induction l with
  | nil => rfl
  | cons x t ih =>
    rw [sortStrAsc]
    exact (insertStrAsc_perm x (sortStrAsc t)).trans (ih.cons x)

/-- C9: if `compute_impact(graph, T, None)` places a module in
`affected_by_depth[k]`, that module is reachable from the target along
reversed (dependent) edges in exactly `k + 1` hops: a walk of length `k + 1`
exists and no shorter positive-length walk does. -/
theorem C9_impact_depths (g : DepGraph) (t k : Nat) (M : String)
    (hM : M ∈ (affectedByDepth g t).getD k []) :
    ∃ v, pathAt g v = M ∧ RevWalk g (k + 1) t v ∧
      ∀ j, 0 < j → j < k + 1 → ¬ RevWalk g j t v := by
  simp only [affectedByDepth] at hM
  by_cases hk : k < maxChainLength (impactDepthMap g t)
  · rw [List.getD_eq_getElem _ _ (by simpa using hk), List.getElem_map,
      List.getElem_range] at hM
    rw [(sortStrAsc_perm _).mem_iff, List.mem_map] at hM
    obtain ⟨e, hefil, hMe⟩ := hM
    obtain ⟨hedm, hek⟩ := List.mem_filter.1 hefil
    simp only [decide_eq_true_eq] at hek
    obtain ⟨-, hw, hmin⟩ :=
      impactLoop_spec g t (g.edges.length + 1) _ (impactInit_inv g t) e.1 e.2 hedm
    rw [hek] at hw
    refine ⟨e.1, hMe, hw, ?_⟩
    intro j hj hjk hwj
    have := hmin j hj hwj
    omega
  · rw [List.getD_eq_default _ _ (by simpa using Nat.le_of_not_lt hk)] at hM
    exact absurd hM (List.not_mem_nil M)

/-- C9 witness: in `gW2` the target `y` (index 1) has `x` in
`affected_by_depth[0]`, and `x` is one reverse hop away. -/
theorem C9_impact_depths_witness :
    ∃ v, pathAt gW2 v = "x" ∧ RevWalk gW2 (0 + 1) 1 v ∧
      ∀ j, 0 < j → j < 0 + 1 → ¬ RevWalk gW2 j 1 v :=
  C9_impact_depths gW2 1 0 "x" (by decide)


/-- Helper: every scanned hit carries the scanned module's path. -/
theorem scanModuleLines_path (path content : String) (b : Boundary) :
    ∀ l ∈ scanModuleLines path content b, l.path = path := by
  intro l hl
  unfold scanModuleLines at hl
  rw [List.mem_filterMap] at hl
  obtain ⟨p, -, hp⟩ := hl
  cases hfind : b.indicators.find? (fun ind =>
      containsStr p.2 ind && !isStringLiteralDefinition p.2 ind) with
  | none =>
    rw [hfind] at hp
    exact absurd hp (by simp)
  | some ind =>
    rw [hfind] at hp
    injection hp with hp
    rw [← hp]

/-- Helper: `filterMap` keys form a sublist of the source keys. -/
theorem filterMap_keys_sublist {α : Type} (f : α → Option (String × List Location))
    (key : α → String) (hf : ∀ a p, f a = some p → p.1 = key a) :
    ∀ l : List α, ((l.filterMap f).map Prod.fst).Sublist (l.map key) := by
  intro l
  induction l with
  | nil => simp
  | cons a t ih =>
    rw [List.filterMap_cons]
    cases hfa : f a with
    | none =>
      rw [List.map_cons]
      exact ih.cons _
    | some p =>
      rw [List.map_cons, List.map_cons, hf a p hfa]
      exact ih.cons₂ _

/-- Helper: occurrence keys are module paths, in module order. -/
theorem boundaryOccurrences_keys (modules : List Module) (fs : String → Option String)
    (b : Boundary) :
    ((boundaryOccurrences modules fs b).map Prod.fst).Sublist
      (modules.map Module.path) := by
  apply filterMap_keys_sublist
  intro m p hp
  by_cases ha : b.isAllowed m.path
  · rw [if_pos ha] at hp
    exact absurd hp (by simp)
  · rw [if_neg ha] at hp
    cases hfs : fs m.path with
    | none =>
      rw [hfs] at hp
      exact absurd hp (by simp)
    | some content =>
      rw [hfs] at hp
      replace hp : (if (scanModuleLines m.path content b).isEmpty then none
          else some (m.path, scanModuleLines m.path content b)) = some p := hp
      by_cases he : (scanModuleLines m.path content b).isEmpty
      · rw [if_pos he] at hp
        exact absurd hp (by simp)
      · rw [if_neg he] at hp
        injection hp with hp
        rw [← hp]

/-- Helper: every occurrence entry is nonempty and keyed by its hits'
path. -/
theorem boundaryOccurrences_entry (modules : List Module) (fs : String → Option String)
    (b : Boundary) :
    ∀ p ∈ boundaryOccurrences modules fs b,
      p.2 ≠ [] ∧ ∀ l ∈ p.2, l.path = p.1 := by
  intro p hp
  rw [boundaryOccurrences, List.mem_filterMap] at hp
  obtain ⟨m, -, hm⟩ := hp
  by_cases ha : b.isAllowed m.path
  · rw [if_pos ha] at hm
    exact absurd hm (by simp)
  · rw [if_neg ha] at hm
    cases hfs : fs m.path with
    | none =>
      rw [hfs] at hm
      exact absurd hm (by simp)
    | some content =>
      rw [hfs] at hm
      replace hm : (if (scanModuleLines m.path content b).isEmpty then none
          else some (m.path, scanModuleLines m.path content b)) = some p := hm
      by_cases he : (scanModuleLines m.path content b).isEmpty
      · rw [if_pos he] at hm
        exact absurd hm (by simp)
      · rw [if_neg he] at hm
        injection hm with hm
        rw [← hm]
        refine ⟨by simpa [List.isEmpty_iff] using he, ?_⟩
        intro l hl
        exact scanModuleLines_path m.path content b l hl

/-- Helper: the flattened length of an association list's values. -/
theorem flatMap_snd_length (occ : List (String × List Location)) :
    (occ.flatMap fun q => q.2).length = (occ.map fun q => q.2.length).sum := by
  induction occ with
  | nil => rfl
  | cons p t ih => simp [List.flatMap_cons, ih]

/-- Helper: a member's value length is at most the flattened total. -/
theorem mem_le_sum_snd (occ : List (String × List Location)) (k : String)
    (v : List Location) (hmem : (k, v) ∈ occ) :
    v.length ≤ (occ.map fun q => q.2.length).sum := by
  induction occ with
  | nil => simp at hmem
  | cons p t ih =>
    rw [List.map_cons, List.sum_cons]
    rcases List.mem_cons.1 hmem with heq | hm
    · rw [← heq]
      exact Nat.le_add_right _ _
    · have := ih hm
      omega

/-- Helper: removing one key's entry drops exactly its length from the
flattened total. -/
theorem flatMap_filter_ne_length (k : String) (v : List Location) :
    ∀ occ : List (String × List Location), (k, v) ∈ occ →
      (occ.map Prod.fst).Nodup →
      ((occ.filter fun q => q.1 ≠ k).flatMap fun q => q.2).length =
        (occ.map fun q => q.2.length).sum - v.length := by
  intro occ
  induction occ with
  | nil =>
    intro h
    simp at h
  | cons p t ih =>
    intro hmem hnd
    rw [List.map_cons, List.nodup_cons] at hnd
    obtain ⟨hp1, hnd2⟩ := hnd
    rw [List.filter_cons]
    by_cases hpk : p.1 ≠ k
    · rw [if_pos (by simpa using hpk)]
      have hmem2 : (k, v) ∈ t := by
        rcases List.mem_cons.1 hmem with heq | hm
        · exact absurd (congrArg Prod.fst heq.symm) hpk
        · exact hm
      have hle := mem_le_sum_snd t k v hmem2
      rw [List.flatMap_cons, List.length_append, ih hmem2 hnd2, List.map_cons,
        List.sum_cons]
      omega
    · rw [if_neg (by simpa using hpk)]
      push_neg at hpk
      have hk : k ∉ t.map Prod.fst := by
        rw [← hpk]
        exact hp1
      have hpv : p.2 = v := by
        rcases List.mem_cons.1 hmem with heq | hm
        · rw [← heq]
        · exact absurd (List.mem_map_of_mem Prod.fst hm) hk
      have htfil : (t.filter fun q => q.1 ≠ k) = t := by
        apply List.filter_eq_self.2
        intro q hq
        simp only [decide_eq_true_eq]
        exact fun hqk => hk (hqk ▸ List.mem_map_of_mem Prod.fst hq)
      rw [htfil, flatMap_snd_length t, List.map_cons, List.sum_cons, hpv]
      omega

/-- Helper: the distinct filtered paths are the keys except the owner's. -/
theorem flatMap_filter_ne_paths (occ : List (String × List Location)) (k : String)
    (hne : ∀ p ∈ occ, p.2 ≠ []) (hpaths : ∀ p ∈ occ, ∀ l ∈ p.2, l.path = p.1) :
    (((occ.filter fun q => q.1 ≠ k).flatMap fun q => q.2).map Location.path).toFinset =
      ((occ.map Prod.fst).toFinset).erase k := by
  ext x
  simp only [List.mem_toFinset, List.mem_map, List.mem_flatMap, List.mem_filter,
    Finset.mem_erase, decide_eq_true_eq]
  constructor
  · rintro ⟨l, ⟨q, ⟨hq, hqk⟩, hl⟩, rfl⟩
    rw [hpaths q hq l hl]
    exact ⟨hqk, ⟨q, hq, rfl⟩⟩
  · rintro ⟨hxk, q, hq, rfl⟩
    obtain ⟨l, hl⟩ := List.exists_mem_of_ne_nil q.2 (hne q hq)
    exact ⟨l, ⟨q, ⟨hq, hxk⟩, hl⟩, hpaths q hq l hl⟩

/-- Helper: with no filtering, the distinct paths are exactly the keys. -/
theorem flatMap_all_paths (occ : List (String × List Location))
    (hne : ∀ p ∈ occ, p.2 ≠ []) (hpaths : ∀ p ∈ occ, ∀ l ∈ p.2, l.path = p.1) :
    ((occ.flatMap fun q => q.2).map Location.path).toFinset =
      (occ.map Prod.fst).toFinset := by
  ext x
  simp only [List.mem_toFinset, List.mem_map, List.mem_flatMap]
  constructor
  · rintro ⟨l, ⟨q, hq, hl⟩, rfl⟩
    exact ⟨q, hq, (hpaths q hq l hl).symm⟩
  · rintro ⟨q, hq, rfl⟩
    obtain ⟨l, hl⟩ := List.exists_mem_of_ne_nil q.2 (hne q hq)
    exact ⟨l, ⟨q, hq, hl⟩, hpaths q hq l hl⟩

/-- Helper: `max_by_key` results over permuted lists share the key value. -/
theorem rustMaxByKey_perm_key {α : Type} (f : α → Nat) {l l2 : List α}
    (h : l2.Perm l) {x x2 : α} (hx : rustMaxByKey f l = some x)
    (hx2 : rustMaxByKey f l2 = some x2) : f x2 = f x := by
  apply Nat.le_antisymm
  · exact rustMaxByKey_le f l x hx x2 (h.mem_iff.1 (rustMaxByKey_mem f l2 x2 hx2))
  · exact rustMaxByKey_le f l2 x2 hx2 x (h.mem_iff.2 (rustMaxByKey_mem f l x hx))

/-- Helper: the ownership filter's output length and distinct-path count are
invariant under permuting the map's iteration order. -/
theorem applyOwnershipFilter_proj (b : Boundary) (occ occ2 : List (String × List Location))
    (hperm : occ2.Perm occ) (hnd : (occ.map Prod.fst).Nodup)
    (hne : ∀ p ∈ occ, p.2 ≠ []) (hpaths : ∀ p ∈ occ, ∀ l ∈ p.2, l.path = p.1) :
    (applyOwnershipFilter occ2 b).length = (applyOwnershipFilter occ b).length ∧
    ((applyOwnershipFilter occ2 b).map Location.path).dedup.length =
      ((applyOwnershipFilter occ b).map Location.path).dedup.length := by
  have hne2 : ∀ p ∈ occ2, p.2 ≠ [] := fun p hp => hne p (hperm.mem_iff.1 hp)
  have hpaths2 : ∀ p ∈ occ2, ∀ l ∈ p.2, l.path = p.1 :=
    fun p hp => hpaths p (hperm.mem_iff.1 hp)
  have hsum : (occ2.map fun q => q.2.length).sum = (occ.map fun q => q.2.length).sum :=
    (hperm.map fun q => q.2.length).sum_eq
  have hkeysfin : (occ2.map Prod.fst).toFinset = (occ.map Prod.fst).toFinset :=
    List.toFinset_eq_of_perm _ _ (hperm.map Prod.fst)
  by_cases hemp : occ.isEmpty
  · have h1 : occ = [] := by simpa [List.isEmpty_iff] using hemp
    subst h1
    have h2 : occ2 = [] := hperm.eq_nil
    subst h2
    exact ⟨rfl, rfl⟩
  · have hemp2 : occ2.isEmpty = false := by
      cases h2 : occ2 with
      | nil =>
        rw [h2] at hperm
        have := hperm.symm.eq_nil
        rw [this] at hemp
        simp at hemp
      | cons x t => rfl
    have hempf : occ.isEmpty = false := by
      cases h1 : occ with
      | nil =>
        rw [h1] at hemp
        simp at hemp
      | cons x t => rfl
    simp only [applyOwnershipFilter, hemp2, hempf, Bool.false_eq_true, if_false, hsum]
    by_cases htot : (occ.map fun q => q.2.length).sum = 0
    · rw [if_pos htot, if_pos htot]
      exact ⟨rfl, rfl⟩
    · rw [if_neg htot, if_neg htot]
      obtain ⟨owner, howner⟩ : ∃ o, rustMaxByKey (fun p => p.2.length) occ = some o := by
        cases h1 : occ with
        | nil =>
          rw [h1] at hempf
          simp at hempf
        | cons x t =>
          exact Option.isSome_iff_exists.1 (rustMaxByKey_isSome (fun p => p.2.length) x t)
      obtain ⟨owner2, howner2⟩ : ∃ o, rustMaxByKey (fun p => p.2.length) occ2 = some o := by
        cases h2 : occ2 with
        | nil =>
          rw [h2] at hemp2
          simp at hemp2
        | cons x t =>
          exact Option.isSome_iff_exists.1 (rustMaxByKey_isSome (fun p => p.2.length) x t)
      rw [howner, howner2]
      have hkey : owner2.2.length = owner.2.length :=
        rustMaxByKey_perm_key (fun p => p.2.length) hperm howner howner2
      simp only [hkey]
      by_cases hrat : b.ownershipThreshold ≤
          (owner.2.length : ℚ) / (((occ.map fun q => q.2.length).sum : Nat) : ℚ)
      · rw [if_pos hrat, if_pos hrat]
        have hmem : (owner.1, owner.2) ∈ occ := by
          have := rustMaxByKey_mem (fun p => p.2.length) occ owner howner
          simpa using this
        have hmem2 : (owner2.1, owner2.2) ∈ occ2 := by
          have := rustMaxByKey_mem (fun p => p.2.length) occ2 owner2 howner2
          simpa using this
        have hnd2 : (occ2.map Prod.fst).Nodup := ((hperm.map Prod.fst).nodup_iff).2 hnd
        constructor
        · rw [flatMap_filter_ne_length owner.1 owner.2 occ hmem hnd,
            flatMap_filter_ne_length owner2.1 owner2.2 occ2 hmem2 hnd2, hsum, hkey]
        · rw [← List.card_toFinset, ← List.card_toFinset,
            flatMap_filter_ne_paths occ owner.1 hne hpaths,
            flatMap_filter_ne_paths occ2 owner2.1 hne2 hpaths2, hkeysfin,
            Finset.card_erase_of_mem, Finset.card_erase_of_mem]
          · exact List.mem_toFinset.2 (List.mem_map_of_mem Prod.fst hmem)
          · rw [← hkeysfin]
            exact List.mem_toFinset.2 (List.mem_map_of_mem Prod.fst hmem2)
      · rw [if_neg hrat, if_neg hrat]
        constructor
        · rw [flatMap_snd_length, flatMap_snd_length, hsum]
        · rw [← List.card_toFinset, ← List.card_toFinset,
            flatMap_all_paths occ hne hpaths, flatMap_all_paths occ2 hne2 hpaths2,
            hkeysfin]

/-- Helper: `flatMap` respects pointwise-equal bodies. -/
theorem flatMap_congr_mem {α β : Type} {l : List α} {f g : α → List β}
    (h : ∀ a ∈ l, f a = g a) : l.flatMap f = l.flatMap g := by
  induction l with
  | nil => rfl
  | cons a t ih =>
    rw [List.flatMap_cons, List.flatMap_cons, h a (List.mem_cons_self _ _),
      ih fun x hx => h x (List.mem_cons_of_mem _ hx)]

/-- C3: the boundary detector's output is *not* a function of its inputs
alone — it also depends on the freshly seeded `HashMap` iteration order —
but under any such order `σ` (any permutation of the occurrence lists) it
emits the same issues as the first-insertion-order run in kind, severity,
message, suggestion, and location count.  Only the location lists may
differ, so two runs of the suite agree on this projection but not
necessarily as raw `Issue` sequences (the original claim is refuted by
`C3_hash_order_counterexample`). -/
theorem C3_detector_order (modules : List Module) (cfg : Config)
    (fs : String → Option String)
    (σ : List (String × List Location) → List (String × List Location))
    (hσ : ∀ l, (σ l).Perm l)
    (hnd : (modules.map Module.path).Nodup) :
    (detectBoundaryViolationsWithFs modules cfg fs σ).map
        (fun i => (i.kind, i.severity, i.message, i.suggestion, i.locations.length)) =
      (detectBoundaryViolationsWithFs modules cfg fs id).map
        (fun i => (i.kind, i.severity, i.message, i.suggestion, i.locations.length)) := by
  unfold detectBoundaryViolationsWithFs
  rw [List.map_flatMap, List.map_flatMap]
  apply flatMap_congr_mem
  intro b _
  have hkeys : ((boundaryOccurrences modules fs b).map Prod.fst).Nodup :=
    (boundaryOccurrences_keys modules fs b).nodup hnd
  have hentry := boundaryOccurrences_entry modules fs b
  obtain ⟨hlen, hded⟩ := applyOwnershipFilter_proj b (boundaryOccurrences modules fs b)
    (σ (boundaryOccurrences modules fs b)) (hσ _) hkeys
    (fun p hp => (hentry p hp).1) (fun p hp => (hentry p hp).2)
  simp only [id]
  rw [hded]
  by_cases hc : cfg.thresholds.boundaryViolationMin ≤
      ((applyOwnershipFilter (boundaryOccurrences modules fs b) b).map
        Location.path).dedup.length
  · rw [if_pos hc, if_pos hc]
    simp [Issue.mkBoundaryViolation, hlen]
  · rw [if_neg hc, if_neg hc]

/-- Helper: the ownership filter on a two-entry tie excludes the second
entry (the iteration-order-dependent `max_by_key` winner) and keeps the
first. -/
theorem applyOwnershipFilter_tie_pair (b : Boundary) (p q : String × List Location)
    (hp : p.2.length = 1) (hq : q.2.length = 1) (hpq : p.1 ≠ q.1)
    (hthr : b.ownershipThreshold ≤ 1 / 2) :
    applyOwnershipFilter [p, q] b = p.2 := by
  have howner : rustMaxByKey (fun r => r.2.length) [p, q] = some q := by
    simp only [rustMaxByKey]
    rw [if_pos (by omega : p.2.length ≤ q.2.length)]
  simp only [applyOwnershipFilter, List.isEmpty_cons, Bool.false_eq_true, if_false,
    List.map_cons, List.map_nil, List.sum_cons, List.sum_nil, hp, hq, howner]
  norm_num
  rw [if_pos hthr]
  simp only [List.filter_cons, List.filter_nil]
  rw [if_pos (by simpa using hpq), if_neg (by simp)]
  simp

/-- C3 counterexample: with two modules tied at one hit each and a 50%
ownership threshold, the `max_by_key` owner — and hence the reported
locations — depends on the `HashMap` iteration order: the identity order
reports the hit in `src/a.rs`, the reversed order the hit in `src/b.rs`. -/
theorem C3_hash_order_counterexample :
    ((boundaryOccurrences modsC3 fsC3 bC3).reverse).Perm
      (boundaryOccurrences modsC3 fsC3 bC3) ∧
    detectBoundaryViolationsWithFs modsC3 cfgC3 fsC3 id ≠
      detectBoundaryViolationsWithFs modsC3 cfgC3 fsC3 List.reverse := by
  have hocc : boundaryOccurrences modsC3 fsC3 bC3 =
      [("src/a.rs", [locC3a]), ("src/b.rs", [locC3b])] := by decide
  have hfa : applyOwnershipFilter [("src/a.rs", [locC3a]), ("src/b.rs", [locC3b])] bC3 =
      [locC3a] :=
    applyOwnershipFilter_tie_pair bC3 _ _ (by decide) (by decide) (by decide)
      (by norm_num [bC3])
  have hfb : applyOwnershipFilter [("src/b.rs", [locC3b]), ("src/a.rs", [locC3a])] bC3 =
      [locC3b] :=
    applyOwnershipFilter_tie_pair bC3 _ _ (by decide) (by decide) (by decide)
      (by norm_num [bC3])
  refine ⟨List.reverse_perm _, ?_⟩
  have hA : detectBoundaryViolationsWithFs modsC3 cfgC3 fsC3 id =
      [Issue.mkBoundaryViolation bC3.name [locC3a] bC3.suggestion] := by
    unfold detectBoundaryViolationsWithFs
    simp only [cfgC3, List.flatMap_cons, List.flatMap_nil, id, hocc, hfa]
    rw [if_pos (by decide)]
    simp
  have hB : detectBoundaryViolationsWithFs modsC3 cfgC3 fsC3 List.reverse =
      [Issue.mkBoundaryViolation bC3.name [locC3b] bC3.suggestion] := by
    unfold detectBoundaryViolationsWithFs
    simp only [cfgC3, List.flatMap_cons, List.flatMap_nil, hocc, List.reverse_cons,
      List.reverse_nil, List.nil_append, List.cons_append, hfb]
    rw [if_pos (by decide)]
    simp
  rw [hA, hB]
  decide

/-- C3 witness: the amended invariance at the reversed iteration order on
the tie scenario itself. -/
theorem C3_detector_order_witness :
    (detectBoundaryViolationsWithFs modsC3 cfgC3 fsC3 List.reverse).map
        (fun i => (i.kind, i.severity, i.message, i.suggestion, i.locations.length)) =
      (detectBoundaryViolationsWithFs modsC3 cfgC3 fsC3 id).map
        (fun i => (i.kind, i.severity, i.message, i.suggestion, i.locations.length)) :=
  C3_detector_order modsC3 cfgC3 fsC3 List.reverse (fun l => List.reverse_perm l)
    (by decide)

end Archmap
